import Mathlib

/- Verification development for libtopology's discovery engine.

   Shallow embedding conventions:
   * CPU bitmasks (cpu_set_t buffers) are Nat bitsets; the byte width `size`
     models the cpu_set_t size argument, and the glibc CPU_SET_S / CPU_ISSET_S
     bound check (bit < 8*size) is made explicit.
   * C strings are List Char (for the parser) or String (sysfs contents).
   * The entity arena is a List Ent indexed by allocation order; the C global
     list ctx->list is this arena in reverse order (entities are pushed on the
     front of the list).  The C children-head pointer plus per-entity sibling
     pointer implement exactly a cons list, embedded here as children : List Nat
     with newest child first.
   * Fallible C functions return Option; out-of-memory paths are not modelled.
   * sysfs is a record of total/partial functions giving directory listings and
     file contents; a None file content models a missing file. -/

/- ===================== cpumask.c ===================== -/

/-- C isxdigit on ASCII: decimal digits, A-F, a-f. -/
def isxdigit (c : Char) : Bool :=
  (48 ≤ c.toNat && c.toNat ≤ 57) || (65 ≤ c.toNat && c.toNat ≤ 70) ||
    (97 ≤ c.toNat && c.toNat ≤ 102)

/-- the ascii_vals table of cpumask.c; the C array is zero-filled elsewhere. -/
def ascii_vals (n : Nat) : Nat :=
  match n with
  | 48 => 0 | 49 => 1 | 50 => 2 | 51 => 3 | 52 => 4
  | 53 => 5 | 54 => 6 | 55 => 7 | 56 => 8 | 57 => 9
  | 65 => 10 | 66 => 11 | 67 => 12 | 68 => 13 | 69 => 14 | 70 => 15
  | 97 => 10 | 98 => 11 | 99 => 12 | 100 => 13 | 101 => 14 | 102 => 15
  | _ => 0

/-- char_to_val of cpumask.c (the isxdigit assert is a precondition there). -/
def char_to_val (c : Char) : Nat := ascii_vals c.toNat

/-- glibc CPU_SET_S: set bit `bit` in mask `m` of byte width `size`; out of
    range bits are silently ignored. -/
def cpuSetS (size bit m : Nat) : Nat :=
  if bit < 8 * size then m ||| (1 <<< bit) else m

/-- glibc CPU_ISSET_S with its bound check. -/
def cpuIssetS (size bit m : Nat) : Bool :=
  decide (bit < 8 * size) && m.testBit bit

/-- the inner loop of topology_cpumask_parse: for (i = 0; i < 4; i++, val >>= 1)
    set bit cpu+i when val's low bit is set.  `r` counts remaining iterations. -/
def set_bits (size : Nat) : Nat → Nat → Nat → Nat → Nat
  | 0, _, _, m => m
  | r+1, cpu, v, m =>
      set_bits size r (cpu+1) (v >>> 1) (if v &&& 1 = 1 then cpuSetS size cpu m else m)

/-- the main scan of topology_cpumask_parse, over the characters from the last
    hex digit backwards to the start of the buffer: commas are skipped, hex
    digits contribute four bits, anything else is an error. -/
def cpumask_scan (size : Nat) : List Char → Nat → Nat → Option Nat
  | [], _, m => some m
  | c :: rest, cpu, m =>
    if c = ',' then cpumask_scan size rest cpu m
    else if isxdigit c then
      cpumask_scan size rest (cpu+4) (set_bits size 4 cpu (char_to_val c) m)
    else none

/-- topology_cpumask_parse of cpumask.c.  Returns (rc, mask): rc = 0 on success
    with the parsed mask; rc = 1 on error with the mask zeroed (CPU_ZERO_S on
    the error path).  The C code walks `pos` from the terminating NUL backwards
    past every non-hex character; that is dropWhile on the reversed buffer. -/
def topology_cpumask_parse (size : Nat) (buf : List Char) : Nat × Nat :=
  match buf.reverse.dropWhile (fun c => !(isxdigit c)) with
  | [] => (1, 0)
  | l =>
    match cpumask_scan size l 0 0 with
    | none => (1, 0)
    | some m => (0, m)

/- ===================== cpumasks tool: format_cpuset ===================== -/

/-- cpuset_to_uint: build the 32-bit word `index` of the mask by testing each
    bit with CPU_ISSET_S and accumulating ret += 1 << i. -/
def cpuset_to_uint (size m index : Nat) : Nat :=
  (List.range 32).foldl
    (fun ret i => if cpuIssetS size (i + index * 32) m then ret + (1 <<< i) else ret) 0

/-- hex digits of w, least significant first (empty for 0); the digit stream
    that printf %x emits in reverse. -/
def hexRevDigits (w : Nat) : List Nat :=
  if h : w = 0 then [] else (w % 16) :: hexRevDigits (w / 16)
decreasing_by exact Nat.div_lt_self (Nat.pos_of_ne_zero h) (by omega)

/-- sprintf("%x", w): lowercase hex, no leading zeros, "0" for zero. -/
def sprintf_hex (w : Nat) : List Char :=
  if w = 0 then ['0'] else (hexRevDigits w).reverse.map Nat.digitChar

/-- sprintf("%08x", w): lowercase hex zero-padded to eight digits. -/
def sprintf_hex08 (w : Nat) : List Char :=
  (List.replicate (8 - (hexRevDigits w).length) 0 ++ (hexRevDigits w).reverse).map
    Nat.digitChar

/-- the output emitted for word `idx` by one iteration of format_cpuset's loop,
    given whether a non-zero word was already seen: zero words before the first
    non-zero one produce nothing, the first non-zero word is printed %x, later
    words %08x, and a comma follows every printed word except word 0. -/
def fmt_word_piece (size m : Nat) (commas : Bool) (idx : Nat) (seen : Bool) : List Char :=
  let w := cpuset_to_uint size m idx
  if w = 0 && !seen then []
  else
    (if !seen then sprintf_hex w else sprintf_hex08 w) ++
      (if (!(idx == 0)) && commas then [','] else [])

/-- the nonzero_seen flag after processing word `idx`. -/
def fmt_seen_step (size m idx : Nat) (seen : Bool) : Bool :=
  seen || !(cpuset_to_uint size m idx == 0)

/-- format_cpuset's word loop, from word `idx` down to word 0; also returns the
    final nonzero_seen flag. -/
def format_words (size m : Nat) (commas : Bool) : Nat → Bool → List Char × Bool
  | 0, seen => (fmt_word_piece size m commas 0 seen, fmt_seen_step size m 0 seen)
  | idx+1, seen =>
    let p := fmt_word_piece size m commas (idx+1) seen
    let r := format_words size m commas idx (fmt_seen_step size m (idx+1) seen)
    (p ++ r.1, r.2)

/-- format_cpuset of the cpumasks tool: nwords 32-bit groups, most significant
    first, leading zero groups suppressed, "0" when the mask is empty. -/
def format_cpuset (size m : Nat) (commas : Bool) : List Char :=
  let nwords := if size > 4 then size / 4 else 1
  let r := format_words size m commas (nwords - 1) false
  if r.2 then r.1 else r.1 ++ ['0']

/- ===================== topology.c data structures ===================== -/

/-- struct topo_procent.  children embeds the C children-head plus sibling
    chain (newest child first); parent/children hold arena indices. -/
structure Ent where
  level : Nat
  id : Nat
  hash_key : Option String
  parent : Option Nat
  children : List Nat
  cpumask : Nat
deriving DecidableEq, Inhabited

/-- struct topo_device with its attribute list (newest attribute first). -/
structure Device where
  type : String
  hash_key : Option String
  cpumask : Nat
  attrs : List (String × String)
deriving DecidableEq, Inhabited

/-- hash table keyed by strings mapping to arena indices (the package and core
    tables); glibc hsearch_r tables have a fixed capacity. -/
structure KVTbl where
  entries : List (String × Nat)
  count : Nat
  maxsize : Nat
deriving DecidableEq, Inhabited

def kv_lookup (t : KVTbl) (k : String) : Option Nat :=
  (t.entries.find? (fun e => e.1 == k)).map (fun e => e.2)

/-- htable_insert: fails when the table is full (hsearch_r ENTER on a full
    table fails; the wrapper also asserts count < maxsize). -/
def kv_insert (t : KVTbl) (k : String) (v : Nat) : Option KVTbl :=
  if t.count < t.maxsize then some ⟨(k, v) :: t.entries, t.count + 1, t.maxsize⟩
  else none

/-- the device hash table: only key membership is ever consulted. -/
structure STbl where
  keys : List String
  count : Nat
  maxsize : Nat
deriving DecidableEq, Inhabited

def s_member (t : STbl) (k : String) : Bool := t.keys.contains k

def s_insert (t : STbl) (k : String) : STbl × Bool :=
  if t.count < t.maxsize then (⟨k :: t.keys, t.count + 1, t.maxsize⟩, true)
  else (t, false)

/-- build-time state: struct topo_context minus the sysfs root string.  The
    system entity is arena index 0 (the first allocation). -/
structure BuildSt where
  size : Nat
  ents : List Ent
  pkgTbl : KVTbl
  coreTbl : KVTbl
  devices : List Device
  devTbl : STbl
deriving DecidableEq, Inhabited

/-- topology level constants of topology.h. -/
def TOPOLOGY_THREAD : Nat := 1
def TOPOLOGY_CORE : Nat := 2
def TOPOLOGY_PACKAGE : Nat := 3
def TOPOLOGY_NODE : Nat := 4
def TOPOLOGY_SYSTEM : Nat := 5

/-- alloc_init_topo_procent: level is SYSTEM without a parent, otherwise the
    parent's level minus one; the new entity joins the global list (arena
    append) and the front of the parent's children chain. -/
def alloc_init_topo_procent (st : BuildSt) (parent : Option Nat) (id : Nat) :
    BuildSt × Nat :=
  let n := st.ents.length
  let level := match parent with
    | none => TOPOLOGY_SYSTEM
    | some p => (st.ents.getD p default).level - 1
  let e : Ent := ⟨level, id, none, parent, [], 0⟩
  let ents1 := match parent with
    | none => st.ents
    | some p =>
        let pe := st.ents.getD p default
        st.ents.set p { pe with children := n :: pe.children }
  ({ st with ents := ents1 ++ [e] }, n)

/-- store a coalescing signature on an entity (pkg->hash_key = strdup(...)). -/
def set_ent_key (st : BuildSt) (i : Nat) (k : String) : BuildSt :=
  let e := st.ents.getD i default
  { st with ents := st.ents.set i { e with hash_key := some k } }

/-- topo_procent_cpumask_set: set the bit on the entity and recursively on
    every ancestor.  The C recursion ends at the parentless system entity;
    fuel (instantiated with the arena size) bounds the parent chain. -/
def topo_procent_cpumask_set (size : Nat) : Nat → List Ent → Nat → Nat → List Ent
  | 0, ents, _, _ => ents
  | f+1, ents, i, bit =>
    let e := ents.getD i default
    let ents1 := ents.set i { e with cpumask := cpuSetS size bit e.cpumask }
    match e.parent with
    | none => ents1
    | some p => topo_procent_cpumask_set size f ents1 p bit

/- ===================== traversal ===================== -/

/-- level_valid: the THREAD..SYSTEM range of enum topology_level. -/
def level_valid (l : Nat) : Bool := decide (TOPOLOGY_THREAD ≤ l ∧ l ≤ TOPOLOGY_SYSTEM)

/-- is_descendant: walk ent's parent chain looking for `frm`. -/
def is_descendant (ents : List Ent) : Nat → Nat → Nat → Bool
  | 0, _, _ => false
  | f+1, frm, i =>
    match (ents.getD i default).parent with
    | none => false
    | some p => if p == frm then true else is_descendant ents f frm p

/-- the element directly after `i` in a children chain (ent->sibling). -/
def next_after (l : List Nat) (i : Nat) : Option Nat :=
  match l with
  | [] => none
  | a :: rest => if a == i then rest.head? else next_after rest i

/-- iter->sibling: the next element of iter's parent's children chain. -/
def sibling_of (ents : List Ent) (i : Nat) : Option Nat :=
  match (ents.getD i default).parent with
  | none => none
  | some p => next_after (ents.getD p default).children i

/-- next_at_level's scan of the global entity list.  The C list holds the
    arena in reverse order, so scanning it is counting indices down; the
    argument is one past the next candidate index. -/
def next_at_level_go (ents : List Ent) (frm lvl : Nat) : Nat → Option Nat
  | 0 => none
  | k+1 =>
    if (ents.getD k default).level == lvl && is_descendant ents ents.length frm k
    then some k
    else next_at_level_go ents frm lvl k

/-- next_at_level: continue after iter, or from the list head. -/
def next_at_level (ents : List Ent) (frm : Nat) (iter : Option Nat) (lvl : Nat) :
    Option Nat :=
  match iter with
  | none => next_at_level_go ents frm lvl ents.length
  | some i => next_at_level_go ents frm lvl i

/-- traverse of topology.c, with fuel bounding the ancestor recursion. -/
def traverse_fuel (ents : List Ent) : Nat → Option Nat → Option Nat → Nat → Option Nat
  | fuel, frm?, iter, lvl =>
    if level_valid lvl = false then none
    else match frm? with
    | none => none
    | some f =>
      let e := ents.getD f default
      if lvl = e.level then none
      else if lvl = e.level + 1 then e.parent
      else if lvl + 1 = e.level then
        match iter with
        | some it => sibling_of ents it
        | none => e.children.head?
      else if e.level < lvl then
        match fuel with
        | 0 => none
        | fu+1 => traverse_fuel ents fu e.parent none lvl
      else next_at_level ents f iter lvl

def topology_traverse (ents : List Ent) (frm iter : Option Nat) (lvl : Nat) : Option Nat :=
  traverse_fuel ents ents.length frm iter lvl

/- ===================== sysfs model ===================== -/

/-- the sysfs surface the builder reads.  nodes: the node directory listing
    (None when devices/system/node is absent); nodeCpus: the cpu entries under
    node N; cpuDirList: the cpu entries of devices/system/cpu; onlineVal: the
    integer sscanf reads from cpu N's online file (None: file absent or not a
    number, treated as online); threadSibFile / coreSibFile: contents of the
    topology sibling files; nrCaches: how many indexN entries cpu N's cache
    directory holds; cacheDir: whether cache/indexK exists; cacheAttr: the
    contents of cache/indexK's named attribute file. -/
structure Sysfs where
  nodes : Option (List Nat)
  nodeCpus : Nat → Option (List Nat)
  cpuDirList : Option (List Nat)
  onlineVal : Nat → Option Int
  threadSibFile : Nat → Option String
  coreSibFile : Nat → Option String
  nrCaches : Nat → Nat
  cacheDir : Nat → Nat → Bool
  cacheAttr : Nat → Nat → String → Option String

/-- sysfs_cpu_is_online: absent or unparsable online file means online. -/
def sysfs_cpu_is_online (fs : Sysfs) (cpu : Nat) : Bool :=
  match fs.onlineVal cpu with
  | none => true
  | some v => !(v == 0)

/-- sysfs_cpu_thread_siblings: file contents, or the cpu id printed %d. -/
def sysfs_cpu_thread_siblings (fs : Sysfs) (cpu : Nat) : String :=
  match fs.threadSibFile cpu with
  | some b => b
  | none => toString cpu

/-- sysfs_cpu_core_siblings: file contents, else fall back to
    sysfs_cpu_thread_siblings (one core per package). -/
def sysfs_cpu_core_siblings (fs : Sysfs) (cpu : Nat) : String :=
  match fs.coreSibFile cpu with
  | some b => b
  | none => sysfs_cpu_thread_siblings fs cpu

/- ===================== cache discovery ===================== -/

/-- topo_device_get_attr_value: first attribute with the given name. -/
def attr_find (d : Device) (name : String) : Option String :=
  (d.attrs.find? (fun a => a.1 == name)).map (fun a => a.2)

/-- the cache signature string built by cache_build_hash. -/
def cache_hash_key (l t m : String) : String :=
  "cache-L" ++ l ++ "-" ++ t ++ "-" ++ m

/-- cache_build_hash: requires the level, type and shared_cpu_map attributes. -/
def cache_build_hash (d : Device) : Option String :=
  match attr_find d ("level"), attr_find d ("type"), attr_find d ("shared_cpu_map") with
  | some l, some t, some m => some (cache_hash_key l t m)
  | _, _, _ => none

/-- alloc_topo_device(ctx, "cache"): fresh zeroed device. -/
def alloc_topo_device : Device := ⟨"cache", none, 0, []⟩

/-- __get_cache_info: read size, type, level, shared_cpu_map in that order
    (attached to the front of the attribute list), parse shared_cpu_map into
    the device mask, and require this cpu to be set in it.  Any failure
    abandons the cache instance. -/
def __get_cache_info (fs : Sysfs) (size cpu index : Nat) (cache : Device) :
    Option Device :=
  if !(fs.cacheDir cpu index) then none
  else match fs.cacheAttr cpu index ("size") with
  | none => none
  | some v1 =>
    let cache := { cache with attrs := ("size", v1) :: cache.attrs }
    match fs.cacheAttr cpu index ("type") with
    | none => none
    | some v2 =>
      let cache := { cache with attrs := ("type", v2) :: cache.attrs }
      match fs.cacheAttr cpu index ("level") with
      | none => none
      | some v3 =>
        let cache := { cache with attrs := ("level", v3) :: cache.attrs }
        match fs.cacheAttr cpu index ("shared_cpu_map") with
        | none => none
        | some v4 =>
          let cache := { cache with attrs := ("shared_cpu_map", v4) :: cache.attrs }
          let pr := topology_cpumask_parse size v4.data
          if !(pr.1 == 0) then none
          else if !(cpuIssetS size cpu pr.2) then none
          else some { cache with cpumask := pr.2 }

/-- re-insert every registered device into a fresh table (hash_device's rehash
    loop); stops on the first failed insertion like the C loop does. -/
def rehash_devices (t : STbl) : List Device → STbl × Bool
  | [] => (t, true)
  | d :: rest =>
    match s_insert t (d.hash_key.getD "") with
    | (t1, true) => rehash_devices t1 rest
    | (t1, false) => (t1, false)

/-- hash_device: insert the key, doubling the table and re-hashing every
    registered device when the table is full. -/
def hash_device (devices : List Device) (tbl : STbl) (key : String) : STbl × Bool :=
  if !(tbl.count == tbl.maxsize) then s_insert tbl key
  else
    match rehash_devices ⟨[], 0, 2 * tbl.maxsize⟩ devices with
    | (t1, true) => s_insert t1 key
    | (t1, false) => (t1, false)

/-- get_cache_info's index loop.  An error (missing directory or attribute,
    parse failure, cpu missing from the shared map, failed hash insert)
    releases the cache and returns immediately -- the ignored return 1 of
    get_cache_info; only the duplicate case continues with the next index. -/
def get_cache_loop (fs : Sysfs) : BuildSt → Nat → Nat → Nat → BuildSt
  | st, _, _, 0 => st
  | st, cpu, index, r+1 =>
    match __get_cache_info fs st.size cpu index alloc_topo_device with
    | none => st
    | some cache =>
      match cache_build_hash cache with
      | none => st
      | some key =>
        let cache := { cache with hash_key := some key }
        if s_member st.devTbl key then get_cache_loop fs st cpu (index+1) r
        else
          match hash_device st.devices st.devTbl key with
          | (t1, false) => { st with devTbl := t1 }
          | (t1, true) =>
            get_cache_loop fs { st with devTbl := t1, devices := cache :: st.devices }
              cpu (index+1) r

/-- get_cache_info: best-effort, the caller ignores its return value, so the
    model returns the (possibly partially updated) state. -/
def get_cache_info (fs : Sysfs) (st : BuildSt) (cpu : Nat) : BuildSt :=
  let nr := fs.nrCaches cpu
  if nr == 0 then st else get_cache_loop fs st cpu 0 nr

/- ===================== graph builder ===================== -/

/-- the package block of do_one_cpu: look the core_siblings signature up in
    ctx->package_htable; on a miss, allocate a PACKAGE entity under the node,
    store the signature and insert it. -/
def pkg_lookup_or_create (st : BuildSt) (key : String) (nodeIdx cpu : Nat) :
    Option (BuildSt × Nat) :=
  match kv_lookup st.pkgTbl key with
  | some p => some (st, p)
  | none =>
    let a := alloc_init_topo_procent st (some nodeIdx) cpu
    let st2 := set_ent_key a.1 a.2 key
    match kv_insert st2.pkgTbl key a.2 with
    | none => none
    | some t => some ({ st2 with pkgTbl := t }, a.2)

/-- the core block of do_one_cpu: look the thread_siblings signature up in the
    context-global ctx->core_htable; on a miss, allocate a CORE entity under
    the package just chosen, store the signature and insert it. -/
def core_lookup_or_create (st : BuildSt) (key : String) (pkg cpu : Nat) :
    Option (BuildSt × Nat) :=
  match kv_lookup st.coreTbl key with
  | some c => some (st, c)
  | none =>
    let a := alloc_init_topo_procent st (some pkg) cpu
    let st2 := set_ent_key a.1 a.2 key
    match kv_insert st2.coreTbl key a.2 with
    | none => none
    | some t => some ({ st2 with coreTbl := t }, a.2)

/-- the tail of do_one_cpu: allocate the THREAD entity under the chosen core,
    set its cpu bit and propagate it up the parent chain, then collect cache
    information (best-effort). -/
def thread_and_caches (fs : Sysfs) (stC : BuildSt) (core cpu : Nat) : BuildSt :=
  let a := alloc_init_topo_procent stC (some core) cpu
  let stM :=
    { a.1 with ents := topo_procent_cpumask_set a.1.size a.1.ents.length a.1.ents a.2 cpu }
  get_cache_info fs stM cpu

/-- do_one_cpu: find or create the package (keyed by the core_siblings string
    in ctx->package_htable), find or create the core (keyed by the
    thread_siblings string in the context-global ctx->core_htable), allocate
    the thread, roll its cpu bit up the parent chain, then collect caches. -/
def do_one_cpu (fs : Sysfs) (st : BuildSt) (nodeIdx cpu : Nat) : Option BuildSt :=
  match pkg_lookup_or_create st (sysfs_cpu_core_siblings fs cpu) nodeIdx cpu with
  | none => none
  | some (stP, pkg) =>
    match core_lookup_or_create stP (sysfs_cpu_thread_siblings fs cpu) pkg cpu with
    | none => none
    | some (stC, core) => some (thread_and_caches fs stC core cpu)

/-- do_node_cpus' readdir loop: skip offline cpus, abort on do_one_cpu error. -/
def do_node_cpus_loop (fs : Sysfs) (nodeIdx : Nat) : BuildSt → List Nat → Option BuildSt
  | st, [] => some st
  | st, c :: rest =>
    if !(sysfs_cpu_is_online fs c) then do_node_cpus_loop fs nodeIdx st rest
    else match do_one_cpu fs st nodeIdx c with
      | none => none
      | some st1 => do_node_cpus_loop fs nodeIdx st1 rest

/-- do_node_cpus: enumerate the node's cpu directory; when faking node 0 fall
    back to devices/system/cpu. -/
def do_node_cpus (fs : Sysfs) (st : BuildSt) (nodeIdx nodeId : Nat) : Option BuildSt :=
  match fs.nodeCpus nodeId with
  | some cpus => do_node_cpus_loop fs nodeIdx st cpus
  | none =>
    if !(nodeId == 0) then none
    else match fs.cpuDirList with
      | none => none
      | some cpus => do_node_cpus_loop fs nodeIdx st cpus

/-- do_one_node: allocate the NODE entity under the system and do its cpus. -/
def do_one_node (fs : Sysfs) (st : BuildSt) (sysIdx nid : Nat) : Option BuildSt :=
  let a := alloc_init_topo_procent st (some sysIdx) nid
  do_node_cpus fs a.1 a.2 nid

/-- build_context's node readdir loop. -/
def do_nodes_loop (fs : Sysfs) (sysIdx : Nat) : BuildSt → List Nat → Option BuildSt
  | st, [] => some st
  | st, n :: rest =>
    match do_one_node fs st sysIdx n with
    | none => none
    | some st1 => do_nodes_loop fs sysIdx st1 rest

/-- build_context plus new_context's table setup: the package and core tables
    hold 8 * size entries, the device table starts at capacity 2; the system
    entity is allocated first, then either the node directory is walked or a
    single node 0 is faked. -/
def build_context (fs : Sysfs) (size : Nat) : Option BuildSt :=
  let st0 : BuildSt := ⟨size, [], ⟨[], 0, 8 * size⟩, ⟨[], 0, 8 * size⟩, [], ⟨[], 0, 2⟩⟩
  let a := alloc_init_topo_procent st0 none 0
  match fs.nodes with
  | none => do_one_node fs a.1 a.2 0
  | some nids => do_nodes_loop fs a.2 a.1 nids

/- ===================== derived notions used in the claims ===================== -/

/-- bitwise union of the masks of a list of entities (by arena index). -/
def mask_union (ents : List Ent) (cs : List Nat) : Nat :=
  cs.foldr (fun c a => (ents.getD c default).cpumask ||| a) 0

/-- the (level, type, shared_cpu_map) attribute triple of a cache device. -/
def cache_triple (d : Device) : Option String × Option String × Option String :=
  (attr_find d ("level"), attr_find d ("type"), attr_find d ("shared_cpu_map"))

/-- the accumulated effect of cpumask_scan on the hex digits alone (commas
    removed): place each digit's four bits at the running bit cursor. -/
def place_digits (size : Nat) : List Char → Nat → Nat → Nat
  | [], _, m => m
  | d :: ds, cpu, m => place_digits size ds (cpu+4) (set_bits size 4 cpu (char_to_val d) m)

/-- the numeric value of a digit list, least significant digit first. -/
def hexlist_val : List Char → Nat
  | [] => 0
  | d :: ds => char_to_val d + 16 * hexlist_val ds

/-- the hex digits of a string in the order the backward scan meets them:
    last digit first, commas and other characters removed. -/
def digits_rev (s : List Char) : List Char := (s.reverse).filter (fun c => isxdigit c)

/- ===================== build invariants (C6, C7) ===================== -/

/-- well-formed entity graph: parent indices point backwards and match the
    children chains, children indices point forwards and are distinct. -/
def ent_wf (ents : List Ent) : Prop :=
  (∀ j, j < ents.length → ∀ p, (ents.getD j default).parent = some p →
      p < j ∧ j ∈ (ents.getD p default).children) ∧
  (∀ j, j < ents.length → ∀ c ∈ (ents.getD j default).children,
      j < c ∧ c < ents.length ∧ (ents.getD c default).parent = some j) ∧
  (∀ j, j < ents.length → ((ents.getD j default).children).Nodup)

/-- the C6 mask invariant: every non-thread entity's mask is the union of its
    children's masks. -/
def mask_inv (ents : List Ent) : Prop :=
  ∀ j, j < ents.length → (ents.getD j default).level ≠ TOPOLOGY_THREAD →
    (ents.getD j default).cpumask = mask_union ents (ents.getD j default).children

/-- the package and core tables map their keys to PACKAGE and CORE entities. -/
def tbl_inv (st : BuildSt) : Prop :=
  (∀ e ∈ st.pkgTbl.entries, e.2 < st.ents.length ∧
      (st.ents.getD e.2 default).level = TOPOLOGY_PACKAGE) ∧
  (∀ e ∈ st.coreTbl.entries, e.2 < st.ents.length ∧
      (st.ents.getD e.2 default).level = TOPOLOGY_CORE)

/-- the C7 device invariant: every registered cache device carries the
    signature of its (level, type, shared_cpu_map) attributes, every device's
    signature is present in the device table, the signatures are pairwise
    distinct, and the table occupancy tracks the device count within its
    capacity. -/
def dev_inv (st : BuildSt) : Prop :=
  (∀ d ∈ st.devices, ∃ l t m, attr_find d ("level") = some l ∧
      attr_find d ("type") = some t ∧ attr_find d ("shared_cpu_map") = some m ∧
      d.hash_key = some (cache_hash_key l t m)) ∧
  (∀ d ∈ st.devices, s_member st.devTbl (d.hash_key.getD "") = true) ∧
  (st.devices.map (fun d => d.hash_key)).Nodup ∧
  st.devTbl.count = st.devices.length ∧
  1 ≤ st.devTbl.maxsize ∧ st.devTbl.count ≤ st.devTbl.maxsize

/-- combined invariant carried through the whole build. -/
def build_inv (st : BuildSt) : Prop :=
  ent_wf st.ents ∧ mask_inv st.ents ∧ tbl_inv st ∧ dev_inv st

/- ===================== concrete sysfs configurations ===================== -/

/-- one online cpu whose core_siblings file is absent while thread_siblings
    exists with contents "f"; no node directory, no caches. -/
def fsC3 : Sysfs :=
  { nodes := none
  , nodeCpus := fun n => if n == 0 then some [0] else none
  , cpuDirList := some [0]
  , onlineVal := fun _ => none
  , threadSibFile := fun _ => some ("f")
  , coreSibFile := fun _ => none
  , nrCaches := fun _ => 0
  , cacheDir := fun _ _ => false
  , cacheAttr := fun _ _ _ => none }

/-- one cpu with two cache index directories: index0 lacks the size attribute,
    index1 carries all four attributes. -/
def fsC4 : Sysfs :=
  { nodes := none
  , nodeCpus := fun n => if n == 0 then some [0] else none
  , cpuDirList := some [0]
  , onlineVal := fun _ => none
  , threadSibFile := fun _ => some ("1")
  , coreSibFile := fun _ => some ("1")
  , nrCaches := fun _ => 2
  , cacheDir := fun _ _ => true
  , cacheAttr := fun _ idx name =>
      if idx == 0 then
        (if name == "size" then none
         else if name == "type" then some ("Data")
         else if name == "level" then some ("1")
         else if name == "shared_cpu_map" then some ("1")
         else none)
      else
        (if name == "size" then some ("16K")
         else if name == "type" then some ("Data")
         else if name == "level" then some ("1")
         else if name == "shared_cpu_map" then some ("1")
         else none) }

/-- two online cpus with identical thread_siblings contents "3" but different
    core_siblings contents ("1" versus "2"), putting them in different
    packages; no caches. -/
def fsC5 : Sysfs :=
  { nodes := none
  , nodeCpus := fun n => if n == 0 then some [0, 1] else none
  , cpuDirList := some [0, 1]
  , onlineVal := fun _ => none
  , threadSibFile := fun _ => some ("3")
  , coreSibFile := fun c => if c == 0 then some ("1") else some ("2")
  , nrCaches := fun _ => 0
  , cacheDir := fun _ _ => true
  , cacheAttr := fun _ _ _ => none }

/-- two cpus in one package, two cores; each cpu reports a private L1 data
    cache and the L2 unified cache shared by both (so the L2 is seen twice and
    must be deduplicated). -/
def fsW : Sysfs :=
  { nodes := none
  , nodeCpus := fun n => if n == 0 then some [0, 1] else none
  , cpuDirList := some [0, 1]
  , onlineVal := fun _ => none
  , threadSibFile := fun c => if c == 0 then some ("1") else some ("2")
  , coreSibFile := fun _ => some ("3")
  , nrCaches := fun _ => 2
  , cacheDir := fun _ _ => true
  , cacheAttr := fun cpu idx name =>
      if idx == 0 then
        (if name == "size" then some ("16K")
         else if name == "type" then some ("Data")
         else if name == "level" then some ("1")
         else if name == "shared_cpu_map" then
           (if cpu == 0 then some ("1") else some ("2"))
         else none)
      else
        (if name == "size" then some ("1M")
         else if name == "type" then some ("Unified")
         else if name == "level" then some ("2")
         else if name == "shared_cpu_map" then some ("3")
         else none) }

/-- the context built from fsW with 4-byte masks (used to witness the
    invariant theorems on a concrete successful build). -/
def ctxW : BuildSt := (build_context fsW 4).getD default

/-- the context built from fsC5 with 4-byte masks. -/
def ctxC5 : BuildSt := (build_context fsC5 4).getD default

/-- the build state just after the system entity (index 0) and a node entity
    (index 1) have been allocated, with 4-byte masks. -/
def stInit3 : BuildSt :=
  ⟨4, [⟨5, 0, none, none, [1], 0⟩, ⟨4, 0, none, some 0, [], 0⟩],
   ⟨[], 0, 32⟩, ⟨[], 0, 32⟩, [], ⟨[], 0, 2⟩⟩

/-- a two-entity arena (system and one node) for exercising traverse. -/
def entsW : List Ent :=
  [⟨5, 0, none, none, [1], 3⟩, ⟨4, 0, none, some 0, [], 3⟩]

/- ===================== theorems ===================== -/

theorem getD_append_lt {α : Type} [Inhabited α] (l : List α) (e : α) (j : Nat)
    (h : j < l.length) : (l ++ [e]).getD j default = l.getD j default := by
  simp [List.getD_eq_getElem?_getD, List.getElem?_append, h]

theorem getD_append_len {α : Type} [Inhabited α] (l : List α) (e : α) :
    (l ++ [e]).getD l.length default = e := by
  simp [List.getD_eq_getElem?_getD, List.getElem?_concat_length]

theorem getD_set_ne {α : Type} [Inhabited α] (l : List α) (i j : Nat) (x : α)
    (h : i ≠ j) : (l.set i x).getD j default = l.getD j default := by
  simp [List.getD_eq_getElem?_getD, List.getElem?_set, h]

theorem getD_set_self {α : Type} [Inhabited α] (l : List α) (i : Nat) (x : α)
    (h : i < l.length) : (l.set i x).getD i default = x := by
  simp [List.getD_eq_getElem?_getD, List.getElem?_set, h]

/- step equation for topo_procent_cpumask_set -/

theorem tpcs_succ (size f : Nat) (ents : List Ent) (i bit : Nat) :
    topo_procent_cpumask_set size (f+1) ents i bit =
      (match (ents.getD i default).parent with
       | none => ents.set i { ents.getD i default with
           cpumask := cpuSetS size bit (ents.getD i default).cpumask }
       | some p => topo_procent_cpumask_set size f
           (ents.set i { ents.getD i default with
             cpumask := cpuSetS size bit (ents.getD i default).cpumask }) p bit) := rfl

theorem tpcs_length (size : Nat) :
    ∀ f ents i bit, (topo_procent_cpumask_set size f ents i bit).length = ents.length := by
  intro f
  induction f with
  | zero => intro ents i bit; rfl
  | succ f ih =>
    intro ents i bit
    rw [tpcs_succ]
    cases h : (ents.getD i default).parent with
    | none => simp
    | some p => simp [ih]

theorem tpcs_getD (size : Nat) :
    ∀ f ents i bit j, ∃ m,
      (topo_procent_cpumask_set size f ents i bit).getD j default =
        { ents.getD j default with cpumask := m } := by
  intro f
  induction f with
  | zero =>
    intro ents i bit j
    exact ⟨(ents.getD j default).cpumask, rfl⟩
  | succ f ih =>
    intro ents i bit j
    rw [tpcs_succ]
    have hstep : ∃ m, ((ents.set i { ents.getD i default with
        cpumask := cpuSetS size bit (ents.getD i default).cpumask }).getD j default) =
        { ents.getD j default with cpumask := m } := by
      by_cases hij : i = j
      · subst hij
        by_cases hlen : i < ents.length
        · exact ⟨_, getD_set_self ents i _ hlen⟩
        · rw [List.set_eq_of_length_le (by omega)]
          exact ⟨(ents.getD i default).cpumask, rfl⟩
      · rw [getD_set_ne ents i j _ hij]
        exact ⟨(ents.getD j default).cpumask, rfl⟩
    cases h : (ents.getD i default).parent with
    | none => simpa using hstep
    | some p =>
      simp only
      obtain ⟨m1, hm1⟩ := hstep
      obtain ⟨m2, hm2⟩ := ih (ents.set i { ents.getD i default with
        cpumask := cpuSetS size bit (ents.getD i default).cpumask }) p bit j
      exact ⟨m2, by rw [hm2, hm1]⟩

theorem alloc_snd (st : BuildSt) (par : Option Nat) (id : Nat) :
    (alloc_init_topo_procent st par id).2 = st.ents.length := rfl

theorem alloc_length (st : BuildSt) (par : Option Nat) (id : Nat) :
    (alloc_init_topo_procent st par id).1.ents.length = st.ents.length + 1 := by
  unfold alloc_init_topo_procent
  cases par <;> simp

theorem getD_set_append_len {α : Type} [Inhabited α] (l : List α) (p : Nat) (x e : α) :
    ((l.set p x) ++ [e]).getD l.length default = e := by
  have h : l.length = (l.set p x).length := by simp
  rw [h, getD_append_len]

theorem alloc_getD_new (st : BuildSt) (p id : Nat) :
    (alloc_init_topo_procent st (some p) id).1.ents.getD st.ents.length default =
      ⟨(st.ents.getD p default).level - 1, id, none, some p, [], 0⟩ := by
  unfold alloc_init_topo_procent
  simp only
  exact getD_set_append_len _ _ _ _

theorem alloc_getD_old (st : BuildSt) (p id j : Nat) (hj : j < st.ents.length) :
    ∃ ch, (alloc_init_topo_procent st (some p) id).1.ents.getD j default =
      { st.ents.getD j default with children := ch } := by
  unfold alloc_init_topo_procent
  simp only
  rw [getD_append_lt _ _ _ (by simpa using hj)]
  by_cases hpj : p = j
  · subst hpj
    by_cases hlen : p < st.ents.length
    · exact ⟨_, getD_set_self _ _ _ hlen⟩
    · omega
  · rw [getD_set_ne _ _ _ _ hpj]
    exact ⟨(st.ents.getD j default).children, rfl⟩

theorem gcl_step (fs : Sysfs) (st : BuildSt) (cpu idx r : Nat) :
    get_cache_loop fs st cpu idx (r+1) =
      (match __get_cache_info fs st.size cpu idx alloc_topo_device with
       | none => st
       | some cache =>
         match cache_build_hash cache with
         | none => st
         | some key =>
           if s_member st.devTbl key then get_cache_loop fs st cpu (idx+1) r
           else
             match hash_device st.devices st.devTbl key with
             | (t1, false) => { st with devTbl := t1 }
             | (t1, true) =>
               get_cache_loop fs
                 { st with devTbl := t1,
                           devices := ({ cache with hash_key := some key } :: st.devices) }
                 cpu (idx+1) r) := rfl

theorem gcl_frame (fs : Sysfs) :
    ∀ r st cpu idx, (get_cache_loop fs st cpu idx r).ents = st.ents ∧
      (get_cache_loop fs st cpu idx r).size = st.size ∧
      (get_cache_loop fs st cpu idx r).pkgTbl = st.pkgTbl ∧
      (get_cache_loop fs st cpu idx r).coreTbl = st.coreTbl := by
  intro r
  induction r with
  | zero => intro st cpu idx; exact ⟨rfl, rfl, rfl, rfl⟩
  | succ r ih =>
    intro st cpu idx
    rw [gcl_step]
    cases h1 : __get_cache_info fs st.size cpu idx alloc_topo_device with
    | none => exact ⟨rfl, rfl, rfl, rfl⟩
    | some cache =>
      simp only
      cases h2 : cache_build_hash cache with
      | none => exact ⟨rfl, rfl, rfl, rfl⟩
      | some key =>
        simp only
        by_cases hm : s_member st.devTbl key
        · simp only [hm, if_true]
          exact ih st cpu (idx+1)
        · simp only [hm, Bool.false_eq_true, if_false]
          cases h3 : hash_device st.devices st.devTbl key with
          | mk t1 ok =>
            cases ok with
            | false => exact ⟨rfl, rfl, rfl, rfl⟩
            | true =>
              exact ⟨(ih _ cpu (idx+1)).1, (ih _ cpu (idx+1)).2.1,
                (ih _ cpu (idx+1)).2.2.1, (ih _ cpu (idx+1)).2.2.2⟩

theorem gci_frame (fs : Sysfs) (st : BuildSt) (cpu : Nat) :
    (get_cache_info fs st cpu).ents = st.ents ∧
      (get_cache_info fs st cpu).size = st.size ∧
      (get_cache_info fs st cpu).pkgTbl = st.pkgTbl ∧
      (get_cache_info fs st cpu).coreTbl = st.coreTbl := by
  unfold get_cache_info
  by_cases h : fs.nrCaches cpu == 0
  · simp [h]
  · simpa [h] using gcl_frame fs (fs.nrCaches cpu) st cpu 0

theorem traverse_fuel_invalid (ents : List Ent) (fuel : Nat) (frm? iter : Option Nat)
    (lvl : Nat) (h : level_valid lvl = false) :
    traverse_fuel ents fuel frm? iter lvl = none := by
  rw [traverse_fuel.eq_def]
  simp [h]

theorem traverse_fuel_none (ents : List Ent) (fuel : Nat) (iter : Option Nat) (lvl : Nat) :
    traverse_fuel ents fuel none iter lvl = none := by
  rw [traverse_fuel.eq_def]
  cases h : level_valid lvl <;> simp [h]

theorem traverse_fuel_self (ents : List Ent) (fuel i : Nat) (iter : Option Nat) (lvl : Nat)
    (heq : lvl = (ents.getD i default).level) :
    traverse_fuel ents fuel (some i) iter lvl = none := by
  cases h : level_valid lvl with
  | false => exact traverse_fuel_invalid ents fuel (some i) iter lvl h
  | true =>
    rw [traverse_fuel.eq_def]
    simp only [List.getD_eq_getElem?_getD] at heq
    simp [h, heq]

theorem traverse_fuel_parent (ents : List Ent) (fuel i : Nat) (iter : Option Nat) (lvl : Nat)
    (h : level_valid lvl = true) (heq : lvl = (ents.getD i default).level + 1) :
    traverse_fuel ents fuel (some i) iter lvl = (ents.getD i default).parent := by
  simp only [List.getD_eq_getElem?_getD] at heq
  rw [heq] at h
  rw [traverse_fuel.eq_def]
  simp [h, heq]

/-- C9: traverse's base cases: a null starting entity yields null; a target
    level outside THREAD(1)..SYSTEM(5) yields null; a target equal to the
    starting level yields null (whether or not the target is a valid level);
    and a target one level up yields the starting entity's parent, whatever
    iter is (for a SYSTEM entity the target 6 is invalid and null is returned,
    which equals that entity's null parent). -/
theorem traverse_base_cases (ents : List Ent) (i : Nat) (iter : Option Nat) (lvl : Nat) :
    (topology_traverse ents none iter lvl = none) ∧
    (¬ (TOPOLOGY_THREAD ≤ lvl ∧ lvl ≤ TOPOLOGY_SYSTEM) →
      topology_traverse ents (some i) iter lvl = none) ∧
    (lvl = (ents.getD i default).level → topology_traverse ents (some i) iter lvl = none) ∧
    (TOPOLOGY_THREAD ≤ (ents.getD i default).level →
      (ents.getD i default).level ≤ TOPOLOGY_SYSTEM →
      ((ents.getD i default).level = TOPOLOGY_SYSTEM →
        (ents.getD i default).parent = none) →
      lvl = (ents.getD i default).level + 1 →
      topology_traverse ents (some i) iter lvl = (ents.getD i default).parent) := by
  refine ⟨?_, ?_, ?_, ?_⟩
  · exact traverse_fuel_none ents ents.length iter lvl
  · intro h
    have hv : level_valid lvl = false := by
      unfold level_valid
      rw [decide_eq_false_iff_not]
      exact h
    exact traverse_fuel_invalid ents ents.length (some i) iter lvl hv
  · intro h
    exact traverse_fuel_self ents ents.length i iter lvl h
  · intro h1 h2 h3 h4
    simp only [TOPOLOGY_THREAD, TOPOLOGY_SYSTEM] at h1 h2 h3
    unfold topology_traverse
    by_cases h5 : (ents.getD i default).level = 5
    · have hv : level_valid lvl = false := by
        unfold level_valid TOPOLOGY_THREAD TOPOLOGY_SYSTEM
        rw [decide_eq_false_iff_not]
        omega
      rw [traverse_fuel_invalid ents ents.length (some i) iter lvl hv, h3 h5]
    · have hv : level_valid lvl = true := by
        unfold level_valid TOPOLOGY_THREAD TOPOLOGY_SYSTEM
        rw [decide_eq_true_eq]
        omega
      exact traverse_fuel_parent ents ents.length i iter lvl hv h4

/-- witness for traverse_base_cases on a concrete two-entity arena: from the
    node (level 4), target 5 gives the system whatever iter is; target 4 and
    target 0 give null, as does a null starting entity. -/
theorem traverse_base_cases_witness :
    topology_traverse entsW (some 1) none 5 = some 0 ∧
    topology_traverse entsW (some 1) (some 0) 5 = some 0 ∧
    topology_traverse entsW (some 1) none 4 = none ∧
    topology_traverse entsW (some 1) none 0 = none ∧
    topology_traverse entsW none none 3 = none := by
  have h1 := (traverse_base_cases entsW 1 none 5).2.2.2
    (by decide) (by decide) (by decide) (by decide)
  have h2 := (traverse_base_cases entsW 1 (some 0) 5).2.2.2
    (by decide) (by decide) (by decide) (by decide)
  have h3 := (traverse_base_cases entsW 1 none 4).2.2.1 (by decide)
  have h4 := (traverse_base_cases entsW 1 none 0).2.1 (by decide)
  have h5 := (traverse_base_cases entsW 1 none 3).1
  refine ⟨?_, ?_, h3, h4, h5⟩
  · rw [h1]; decide
  · rw [h2]; decide

/- lookup-or-create step lemmas -/

theorem alloc_frame (st : BuildSt) (par : Option Nat) (id : Nat) :
    (alloc_init_topo_procent st par id).1.size = st.size ∧
      (alloc_init_topo_procent st par id).1.pkgTbl = st.pkgTbl ∧
      (alloc_init_topo_procent st par id).1.coreTbl = st.coreTbl ∧
      (alloc_init_topo_procent st par id).1.devices = st.devices ∧
      (alloc_init_topo_procent st par id).1.devTbl = st.devTbl := by
  unfold alloc_init_topo_procent
  cases par <;> exact ⟨rfl, rfl, rfl, rfl, rfl⟩

theorem sek_frame (st : BuildSt) (i : Nat) (k : String) :
    (set_ent_key st i k).size = st.size ∧
      (set_ent_key st i k).pkgTbl = st.pkgTbl ∧
      (set_ent_key st i k).coreTbl = st.coreTbl ∧
      (set_ent_key st i k).devices = st.devices ∧
      (set_ent_key st i k).devTbl = st.devTbl :=
  ⟨rfl, rfl, rfl, rfl, rfl⟩

theorem sek_length (st : BuildSt) (i : Nat) (k : String) :
    (set_ent_key st i k).ents.length = st.ents.length := by
  simp [set_ent_key]

theorem sek_getD_ne (st : BuildSt) (i j : Nat) (k : String) (h : i ≠ j) :
    (set_ent_key st i k).ents.getD j default = st.ents.getD j default := by
  unfold set_ent_key
  simp only
  exact getD_set_ne _ _ _ _ h

theorem sek_getD_self (st : BuildSt) (i : Nat) (k : String) (h : i < st.ents.length) :
    (set_ent_key st i k).ents.getD i default =
      { st.ents.getD i default with hash_key := some k } := by
  unfold set_ent_key
  simp only
  exact getD_set_self _ _ _ h

theorem pkg_loc_hit (st : BuildSt) (key : String) (nodeIdx cpu p : Nat)
    (h : kv_lookup st.pkgTbl key = some p) :
    pkg_lookup_or_create st key nodeIdx cpu = some (st, p) := by
  unfold pkg_lookup_or_create
  rw [h]

theorem core_loc_hit (st : BuildSt) (key : String) (pkg cpu c : Nat)
    (h : kv_lookup st.coreTbl key = some c) :
    core_lookup_or_create st key pkg cpu = some (st, c) := by
  unfold core_lookup_or_create
  rw [h]

theorem pkg_loc_miss (st : BuildSt) (key : String) (nodeIdx cpu : Nat)
    (h : kv_lookup st.pkgTbl key = none) (hc : st.pkgTbl.count < st.pkgTbl.maxsize) :
    pkg_lookup_or_create st key nodeIdx cpu =
      some ({ set_ent_key (alloc_init_topo_procent st (some nodeIdx) cpu).1
                st.ents.length key with
              pkgTbl := ⟨(key, st.ents.length) :: st.pkgTbl.entries,
                st.pkgTbl.count + 1, st.pkgTbl.maxsize⟩ },
            st.ents.length) := by
  unfold pkg_lookup_or_create
  rw [h]
  simp only [alloc_snd]
  have hins : kv_insert (set_ent_key (alloc_init_topo_procent st (some nodeIdx) cpu).1
      st.ents.length key).pkgTbl key st.ents.length =
      some ⟨(key, st.ents.length) :: st.pkgTbl.entries,
        st.pkgTbl.count + 1, st.pkgTbl.maxsize⟩ := by
    unfold kv_insert set_ent_key alloc_init_topo_procent
    simp only
    rw [if_pos hc]
  rw [hins]

theorem cloc_shape (st : BuildSt) (key : String) (pkg cpu : Nat) (stC : BuildSt) (c : Nat)
    (h : core_lookup_or_create st key pkg cpu = some (stC, c)) :
    stC.pkgTbl = st.pkgTbl ∧ stC.size = st.size ∧
      st.ents.length ≤ stC.ents.length ∧
      (∀ j, j < st.ents.length → ∃ ch,
        stC.ents.getD j default = { st.ents.getD j default with children := ch }) := by
  unfold core_lookup_or_create at h
  cases hl : kv_lookup st.coreTbl key with
  | some c0 =>
    rw [hl] at h
    simp only [Option.some.injEq, Prod.mk.injEq] at h
    obtain ⟨h1, h2⟩ := h
    subst h1
    exact ⟨rfl, rfl, Nat.le_refl _, fun j hj =>
      ⟨(st.ents.getD j default).children, rfl⟩⟩
  | none =>
    rw [hl] at h
    simp only at h
    cases hins : kv_insert (set_ent_key (alloc_init_topo_procent st (some pkg) cpu).1
        (alloc_init_topo_procent st (some pkg) cpu).2 key).coreTbl key
        (alloc_init_topo_procent st (some pkg) cpu).2 with
    | none => rw [hins] at h; exact absurd h (by simp)
    | some t =>
      rw [hins] at h
      simp only [Option.some.injEq, Prod.mk.injEq] at h
      obtain ⟨h1, h2⟩ := h
      subst h1
      refine ⟨rfl, rfl, ?_, ?_⟩
      · rw [sek_length]
        rw [alloc_length]
        omega
      · intro j hj
        obtain ⟨ch, hch⟩ := alloc_getD_old st pkg cpu j hj
        refine ⟨ch, ?_⟩
        rw [alloc_snd, sek_getD_ne _ _ _ _ (by omega), hch]

theorem tac_length (fs : Sysfs) (stC : BuildSt) (core cpu : Nat) :
    (thread_and_caches fs stC core cpu).ents.length = stC.ents.length + 1 := by
  unfold thread_and_caches
  simp only
  rw [(gci_frame fs _ cpu).1]
  simp only [tpcs_length, alloc_length]

theorem tac_tables (fs : Sysfs) (stC : BuildSt) (core cpu : Nat) :
    (thread_and_caches fs stC core cpu).pkgTbl = stC.pkgTbl ∧
      (thread_and_caches fs stC core cpu).coreTbl = stC.coreTbl ∧
      (thread_and_caches fs stC core cpu).size = stC.size := by
  unfold thread_and_caches
  simp only
  refine ⟨?_, ?_, ?_⟩
  · rw [(gci_frame fs _ cpu).2.2.1]
    exact (alloc_frame stC (some core) cpu).2.1
  · rw [(gci_frame fs _ cpu).2.2.2]
    exact (alloc_frame stC (some core) cpu).2.2.1
  · rw [(gci_frame fs _ cpu).2.1]
    exact (alloc_frame stC (some core) cpu).1

theorem tac_getD_new (fs : Sysfs) (stC : BuildSt) (core cpu : Nat) :
    ∃ msk, (thread_and_caches fs stC core cpu).ents.getD stC.ents.length default =
      { level := (stC.ents.getD core default).level - 1, id := cpu, hash_key := none,
        parent := some core, children := [], cpumask := msk } := by
  unfold thread_and_caches
  simp only
  rw [(gci_frame fs _ cpu).1]
  simp only [alloc_snd, (alloc_frame stC (some core) cpu).1]
  obtain ⟨m, hm⟩ := tpcs_getD stC.size
    ((alloc_init_topo_procent stC (some core) cpu).1.ents.length)
    (alloc_init_topo_procent stC (some core) cpu).1.ents
    stC.ents.length cpu stC.ents.length
  refine ⟨m, ?_⟩
  rw [hm, alloc_getD_new]

theorem tac_getD_old (fs : Sysfs) (stC : BuildSt) (core cpu j : Nat)
    (hj : j < stC.ents.length) :
    ∃ ch msk, (thread_and_caches fs stC core cpu).ents.getD j default =
      { stC.ents.getD j default with children := ch, cpumask := msk } := by
  unfold thread_and_caches
  simp only
  rw [(gci_frame fs _ cpu).1]
  simp only [alloc_snd, (alloc_frame stC (some core) cpu).1]
  obtain ⟨m, hm⟩ := tpcs_getD stC.size
    ((alloc_init_topo_procent stC (some core) cpu).1.ents.length)
    (alloc_init_topo_procent stC (some core) cpu).1.ents
    stC.ents.length cpu j
  obtain ⟨ch, hch⟩ := alloc_getD_old stC core cpu j hj
  exact ⟨ch, m, by rw [hm, hch]⟩

/-- C5 (amended): the core table is global to the build and keyed by the
    thread_siblings signature alone.  When both the package and the core
    lookups hit, do_one_cpu adds exactly one entity -- the thread -- whose
    parent is the core found in the table, whatever package was chosen and
    whichever package that core belongs to; no CORE entity is created. -/
theorem core_reuse_is_global (fs : Sysfs) (st : BuildSt) (nodeIdx cpu p c : Nat)
    (hp : kv_lookup st.pkgTbl (sysfs_cpu_core_siblings fs cpu) = some p)
    (hc : kv_lookup st.coreTbl (sysfs_cpu_thread_siblings fs cpu) = some c) :
    do_one_cpu fs st nodeIdx cpu = some (thread_and_caches fs st c cpu) ∧
    (thread_and_caches fs st c cpu).ents.length = st.ents.length + 1 ∧
    ((thread_and_caches fs st c cpu).ents.getD st.ents.length default).parent = some c ∧
    ((thread_and_caches fs st c cpu).ents.getD st.ents.length default).level =
      (st.ents.getD c default).level - 1 ∧
    (∀ j, j < st.ents.length →
      ((thread_and_caches fs st c cpu).ents.getD j default).level =
        (st.ents.getD j default).level ∧
      ((thread_and_caches fs st c cpu).ents.getD j default).parent =
        (st.ents.getD j default).parent ∧
      ((thread_and_caches fs st c cpu).ents.getD j default).hash_key =
        (st.ents.getD j default).hash_key) := by
  refine ⟨?_, tac_length fs st c cpu, ?_, ?_, ?_⟩
  · unfold do_one_cpu
    rw [pkg_loc_hit st _ nodeIdx cpu p hp]
    simp only [core_loc_hit st _ p cpu c hc]
  · obtain ⟨m, hm⟩ := tac_getD_new fs st c cpu
    rw [hm]
  · obtain ⟨m, hm⟩ := tac_getD_new fs st c cpu
    rw [hm]
  · intro j hj
    obtain ⟨ch, m, hm⟩ := tac_getD_old fs st c cpu j hj
    rw [hm]
    exact ⟨rfl, rfl, rfl⟩

/-- witness for core_reuse_is_global on a concrete state: in the context built
    from fsC5 the core table maps "3" to the core at index 3 (a child of the
    first package) while cpu 1's core_siblings signature "2" maps to the second
    package at index 5; re-running do_one_cpu for cpu 1 attaches the new thread
    to the core at index 3, across packages. -/
theorem core_reuse_is_global_witness :
    do_one_cpu fsC5 ctxC5 1 1 = some (thread_and_caches fsC5 ctxC5 3 1) ∧
      ((thread_and_caches fsC5 ctxC5 3 1).ents.getD ctxC5.ents.length default).parent =
        some 3 := by
  have h := core_reuse_is_global fsC5 ctxC5 1 1 5 3 (by decide) (by decide)
  exact ⟨h.1, h.2.2.1⟩

/-- counterexample to C5 as stated: in fsC5 the two online cpus have equal
    thread_siblings signatures but their core_siblings signatures place them
    in different PACKAGE entities, yet the build creates two packages and only
    ONE core (under the first package), not two distinct COREs. -/
theorem core_scoping_counterexample :
    sysfs_cpu_thread_siblings fsC5 0 = sysfs_cpu_thread_siblings fsC5 1 ∧
    sysfs_cpu_core_siblings fsC5 0 ≠ sysfs_cpu_core_siblings fsC5 1 ∧
    (build_context fsC5 4).map (fun st =>
      ((st.ents.filter (fun e => e.level == TOPOLOGY_PACKAGE)).length,
       (st.ents.filter (fun e => e.level == TOPOLOGY_CORE)).length)) = some (2, 1) ∧
    (build_context fsC5 4).map (fun st =>
      (st.ents.getD 3 default).parent) = some (some 2) ∧
    (build_context fsC5 4).map (fun st =>
      (st.ents.getD 6 default).parent) = some (some 3) := by
  refine ⟨by decide, by decide, by decide, by decide, by decide⟩

/-- C3 (amended): when cpu{id}/topology/core_siblings is absent, the package
    signature S_pkg used to look up and register the PACKAGE entity is the
    thread_siblings fallback: the contents s of thread_siblings when that file
    exists (not the synthesized decimal id); on a package-table miss the new
    package is registered under key s and stores s as its hash_key. -/
theorem pkg_signature_fallback (fs : Sysfs) (st : BuildSt) (nodeIdx cpu : Nat) (s : String)
    (h1 : fs.coreSibFile cpu = none)
    (h2 : fs.threadSibFile cpu = some s)
    (h3 : kv_lookup st.pkgTbl s = none)
    (h4 : st.pkgTbl.count < st.pkgTbl.maxsize) :
    sysfs_cpu_core_siblings fs cpu = s ∧
    (∀ st', do_one_cpu fs st nodeIdx cpu = some st' →
      (st'.ents.getD st.ents.length default).hash_key = some s ∧
      (st'.ents.getD st.ents.length default).parent = some nodeIdx ∧
      kv_lookup st'.pkgTbl s = some st.ents.length) := by
  have hkey : sysfs_cpu_core_siblings fs cpu = s := by
    unfold sysfs_cpu_core_siblings sysfs_cpu_thread_siblings
    rw [h1, h2]
  refine ⟨hkey, ?_⟩
  intro st' hdo
  unfold do_one_cpu at hdo
  rw [hkey, pkg_loc_miss st s nodeIdx cpu h3 h4] at hdo
  set stB : BuildSt :=
    { set_ent_key (alloc_init_topo_procent st (some nodeIdx) cpu).1 st.ents.length s with
      pkgTbl := ⟨(s, st.ents.length) :: st.pkgTbl.entries,
        st.pkgTbl.count + 1, st.pkgTbl.maxsize⟩ } with hstB
  have hn_lt : st.ents.length < stB.ents.length := by
    rw [hstB]
    show st.ents.length < (set_ent_key _ _ _).ents.length
    rw [sek_length, alloc_length]
    omega
  have hgetB : stB.ents.getD st.ents.length default =
      { level := (st.ents.getD nodeIdx default).level - 1, id := cpu,
        hash_key := some s, parent := some nodeIdx, children := [], cpumask := 0 } := by
    rw [hstB]
    show (set_ent_key (alloc_init_topo_procent st (some nodeIdx) cpu).1
      st.ents.length s).ents.getD st.ents.length default = _
    have hlt : st.ents.length < (alloc_init_topo_procent st (some nodeIdx) cpu).1.ents.length := by
      rw [alloc_length]; omega
    have := sek_getD_self (alloc_init_topo_procent st (some nodeIdx) cpu).1
      st.ents.length s hlt
    rw [this, alloc_getD_new]
  have hpkgB : stB.pkgTbl = ⟨(s, st.ents.length) :: st.pkgTbl.entries,
      st.pkgTbl.count + 1, st.pkgTbl.maxsize⟩ := rfl
  dsimp only at hdo
  cases hcl : core_lookup_or_create stB (sysfs_cpu_thread_siblings fs cpu) st.ents.length cpu with
  | none =>
    rw [hcl] at hdo
    exact absurd hdo (by simp)
  | some pr =>
    obtain ⟨stC, c⟩ := pr
    rw [hcl] at hdo
    simp only [Option.some.injEq] at hdo
    obtain ⟨hpk, hsz, hlen, hfld⟩ := cloc_shape stB _ st.ents.length cpu stC c hcl
    obtain ⟨ch, hch⟩ := hfld st.ents.length hn_lt
    obtain ⟨ch2, m2, hm2⟩ := tac_getD_old fs stC c cpu st.ents.length (by omega)
    subst hdo
    refine ⟨?_, ?_, ?_⟩
    · rw [hm2, hch, hgetB]
    · rw [hm2, hch, hgetB]
    · rw [(tac_tables fs stC c cpu).1, hpk, hpkgB]
      unfold kv_lookup
      simp [List.find?_cons]

/-- witness for pkg_signature_fallback: cpu 0 of fsC3 in the empty initial
    state with a node at index 1. -/
theorem pkg_signature_fallback_witness :
    sysfs_cpu_core_siblings fsC3 0 = "f" ∧
    (∀ st', do_one_cpu fsC3 stInit3 1 0 = some st' →
      (st'.ents.getD stInit3.ents.length default).hash_key = some ("f") ∧
      (st'.ents.getD stInit3.ents.length default).parent = some 1 ∧
      kv_lookup st'.pkgTbl ("f") = some stInit3.ents.length) :=
  pkg_signature_fallback fsC3 stInit3 1 0 "f" (by decide) (by decide) (by decide) (by decide)

/-- counterexample to C3 as stated: in fsC3 cpu 0's core_siblings file is
    absent but thread_siblings exists with contents "f"; the build registers
    the single PACKAGE entity with signature "f", not the synthesized decimal
    string "0". -/
theorem pkg_signature_counterexample :
    fsC3.coreSibFile 0 = none ∧
    fsC3.threadSibFile 0 = some ("f") ∧
    (build_context fsC3 4).map (fun st =>
      (st.ents.filter (fun e => e.level == TOPOLOGY_PACKAGE)).map
        (fun e => e.hash_key)) = some [some ("f")] ∧
    ("f" : String) ≠ "0" := by
  refine ⟨by decide, by decide, by decide, by decide⟩

theorem gci_none_of_missing_attr (fs : Sysfs) (size cpu idx : Nat) (cache : Device)
    (hmiss : fs.cacheAttr cpu idx ("size") = none ∨
      fs.cacheAttr cpu idx ("type") = none ∨
      fs.cacheAttr cpu idx ("level") = none ∨
      fs.cacheAttr cpu idx ("shared_cpu_map") = none) :
    __get_cache_info fs size cpu idx cache = none := by
  unfold __get_cache_info
  cases hdir : fs.cacheDir cpu idx with
  | false => simp
  | true =>
    simp only [Bool.not_true, Bool.false_eq_true, if_false]
    cases ha : fs.cacheAttr cpu idx ("size") with
    | none => simp
    | some v1 =>
      simp only
      cases hb : fs.cacheAttr cpu idx ("type") with
      | none => simp
      | some v2 =>
        simp only
        cases hc : fs.cacheAttr cpu idx ("level") with
        | none => simp
        | some v3 =>
          simp only
          cases hd : fs.cacheAttr cpu idx ("shared_cpu_map") with
          | none => simp
          | some v4 =>
            rcases hmiss with h | h | h | h <;>
              first
              | exact absurd h (by rw [ha]; simp)
              | exact absurd h (by rw [hb]; simp)
              | exact absurd h (by rw [hc]; simp)
              | exact absurd h (by rw [hd]; simp)

/-- C4 (amended): when any of the four attributes size, type, level,
    shared_cpu_map is missing at cache index k, that cache instance is freed
    and cache discovery for this thread STOPS: the remaining indexes k+1..n-1
    are not examined and nothing more is registered (the loop returns the
    state unchanged); the surrounding build still continues because
    get_cache_info's failure is ignored. -/
theorem cache_scan_stops_on_missing_attr (fs : Sysfs) (st : BuildSt) (cpu idx r : Nat)
    (hmiss : fs.cacheAttr cpu idx ("size") = none ∨
      fs.cacheAttr cpu idx ("type") = none ∨
      fs.cacheAttr cpu idx ("level") = none ∨
      fs.cacheAttr cpu idx ("shared_cpu_map") = none) :
    get_cache_loop fs st cpu idx (r+1) = st := by
  rw [gcl_step, gci_none_of_missing_attr fs st.size cpu idx alloc_topo_device hmiss]

/-- witness for cache_scan_stops_on_missing_attr: index 0 of fsC4 lacks the
    size attribute, so a two-index scan from the initial state registers
    nothing. -/
theorem cache_scan_stops_witness :
    get_cache_loop fsC4 stInit3 0 0 2 = stInit3 :=
  cache_scan_stops_on_missing_attr fsC4 stInit3 0 0 1 (Or.inl (by decide))

/-- counterexample to C4 as stated: in fsC4, index 0 lacks only its size
    attribute while index 1 carries all four attributes, yet the build
    registers no cache device at all -- discovery did not continue past
    index 0. -/
theorem cache_scan_counterexample :
    fsC4.nrCaches 0 = 2 ∧
    fsC4.cacheAttr 0 0 ("size") = none ∧
    fsC4.cacheAttr 0 1 ("size") = some ("16K") ∧
    fsC4.cacheAttr 0 1 ("type") = some ("Data") ∧
    fsC4.cacheAttr 0 1 ("level") = some ("1") ∧
    fsC4.cacheAttr 0 1 ("shared_cpu_map") = some ("1") ∧
    (build_context fsC4 4).map (fun st => st.devices.length) = some 0 := by
  refine ⟨by decide, by decide, by decide, by decide, by decide, by decide, by decide⟩

/- ===================== cpumask parser theorems ===================== -/

/- bit-level helpers for the parser -/

theorem ascii_vals_lt (n : Nat) : ascii_vals n < 16 := by
  unfold ascii_vals
  split <;> omega

theorem char_to_val_lt (c : Char) : char_to_val c < 16 := ascii_vals_lt c.toNat

theorem cpuSetS_or (size bit m : Nat) :
    cpuSetS size bit m = m ||| (if bit < 8 * size then 2^bit else 0) := by
  unfold cpuSetS
  rw [Nat.shiftLeft_eq, Nat.one_mul]
  split <;> simp

theorem testBit_ite_pow (c : Prop) [Decidable c] (k i : Nat) :
    (if c then 2^k else 0).testBit i = (decide c && decide (k = i)) := by
  split <;> simp_all [Nat.testBit_two_pow]

theorem set_bits_zero (size cpu v m : Nat) : set_bits size 0 cpu v m = m := rfl

theorem set_bits_succ (size r cpu v m : Nat) :
    set_bits size (r+1) cpu v m =
      set_bits size r (cpu+1) (v >>> 1) (if v &&& 1 = 1 then cpuSetS size cpu m else m) := rfl

theorem and_one_eq_testBit (v k : Nat) : ((v >>> k) &&& 1 = 1) ↔ v.testBit k = true := by
  rw [Nat.and_one_is_mod]
  rw [Nat.testBit_to_div_mod, Nat.shiftRight_eq_div_pow]
  simp

theorem and_one_eq_testBit0 (v : Nat) : (v &&& 1 = 1) ↔ v.testBit 0 = true := by
  have h := and_one_eq_testBit v 0
  simp only [Nat.shiftRight_zero] at h
  exact h

theorem set_bits_step_val (cpu v r : Nat) :
    (if v.testBit 0 then 2^cpu else 0) ||| (((v >>> 1) % 2^r) <<< (cpu+1)) =
      ((v % 2^(r+1)) <<< cpu) := by
  apply Nat.eq_of_testBit_eq
  intro i
  rw [Nat.testBit_lor, testBit_ite_pow, Nat.testBit_shiftLeft, Nat.testBit_shiftLeft,
    Nat.testBit_mod_two_pow, Nat.testBit_mod_two_pow, Nat.testBit_shiftRight]
  by_cases h1 : i < cpu
  · have e0 : cpu ≠ i := by omega
    have e1 : ¬ (cpu + 1 ≤ i) := by omega
    have e2 : ¬ (cpu ≤ i) := by omega
    simp [e0, e1, e2]
  · by_cases h2 : i = cpu
    · subst h2
      have e1 : ¬ (i + 1 ≤ i) := by omega
      simp [e1]
    · have e0 : cpu ≠ i := fun hc => h2 hc.symm
      have e1 : cpu + 1 ≤ i := by omega
      have e2 : cpu ≤ i := by omega
      have e3 : 1 + (i - (cpu+1)) = i - cpu := by omega
      have e4 : (i - (cpu+1) < r) = (i - cpu < r + 1) := by
        apply propext
        omega
      simp [e0, e1, e2, e3, e4]

theorem set_bits_spec (size : Nat) :
    ∀ r cpu v m, cpu + r ≤ 8 * size →
      set_bits size r cpu v m = m ||| ((v % 2^r) <<< cpu) := by
  intro r
  induction r with
  | zero =>
    intro cpu v m h
    rw [set_bits_zero]
    simp [Nat.mod_one]
  | succ r ih =>
    intro cpu v m h
    rw [set_bits_succ, ih (cpu+1) (v >>> 1) _ (by omega)]
    have hm0 : (if v &&& 1 = 1 then cpuSetS size cpu m else m) =
        m ||| (if v.testBit 0 then 2^cpu else 0) := by
      by_cases hc : v &&& 1 = 1
      · have ht : v.testBit 0 = true := (and_one_eq_testBit0 v).mp hc
        rw [if_pos hc, cpuSetS_or, if_pos (by omega), ht, if_pos rfl]
      · have ht : v.testBit 0 = false := by
          rcases Bool.eq_false_or_eq_true (v.testBit 0) with htr | hf
          · exact absurd ((and_one_eq_testBit0 v).mpr htr) hc
          · exact hf
        rw [if_neg hc, ht]
        simp
    rw [hm0, Nat.lor_assoc, set_bits_step_val]

theorem set_bits4 (size cpu v m : Nat) (h : cpu + 4 ≤ 8 * size) (hv : v < 16) :
    set_bits size 4 cpu v m = m ||| (v <<< cpu) := by
  rw [set_bits_spec size 4 cpu v m h]
  congr 1
  rw [Nat.mod_eq_of_lt (by norm_num [hv] )]

theorem isxdigit_comma : isxdigit ',' = false := by decide

theorem scan_ok (size : Nat) :
    ∀ l cpu m, (∀ c ∈ l, isxdigit c = true ∨ c = ',') →
      cpumask_scan size l cpu m =
        some (place_digits size (l.filter (fun c => isxdigit c)) cpu m) := by
  intro l
  induction l with
  | nil => intro cpu m h; rfl
  | cons c rest ih =>
    intro cpu m h
    have hrest : ∀ x ∈ rest, isxdigit x = true ∨ x = ',' := fun x hx => h x (by simp [hx])
    by_cases hc : c = ','
    · subst hc
      unfold cpumask_scan
      rw [if_pos rfl]
      rw [ih cpu m hrest]
      simp [isxdigit_comma]
    · have hx : isxdigit c = true := by
        rcases h c (by simp) with h1 | h1
        · exact h1
        · exact absurd h1 hc
      unfold cpumask_scan
      rw [if_neg hc, if_pos hx, ih (cpu+4) _ hrest]
      simp only [List.filter_cons, hx, if_pos]
      rfl

theorem scan_none_iff (size : Nat) :
    ∀ l cpu m, cpumask_scan size l cpu m = none ↔
      ∃ c ∈ l, isxdigit c = false ∧ c ≠ ',' := by
  intro l
  induction l with
  | nil =>
    intro cpu m
    simp [cpumask_scan]
  | cons c rest ih =>
    intro cpu m
    by_cases hc : c = ','
    · subst hc
      unfold cpumask_scan
      rw [if_pos rfl, ih]
      constructor
      · rintro ⟨x, hx, h1, h2⟩
        exact ⟨x, by simp [hx], h1, h2⟩
      · rintro ⟨x, hx, h1, h2⟩
        rcases List.mem_cons.mp hx with he | hm
        · exact absurd (he ▸ h2) (by simp)
        · exact ⟨x, hm, h1, h2⟩
    · by_cases hx : isxdigit c = true
      · unfold cpumask_scan
        rw [if_neg hc, if_pos hx, ih]
        constructor
        · rintro ⟨x, hmem, h1, h2⟩
          exact ⟨x, by simp [hmem], h1, h2⟩
        · rintro ⟨x, hmem, h1, h2⟩
          rcases List.mem_cons.mp hmem with he | hm
          · rw [he] at h1
            rw [hx] at h1
            exact absurd h1 (by simp)
          · exact ⟨x, hm, h1, h2⟩
      · unfold cpumask_scan
        rw [if_neg hc, if_neg hx]
        simp only [true_iff]
        exact ⟨c, by simp, by simpa using hx, hc⟩

theorem hexlist_val_lt : ∀ ds : List Char, hexlist_val ds < 16 ^ ds.length := by
  intro ds
  induction ds with
  | nil => simp [hexlist_val]
  | cons d rest ih =>
    unfold hexlist_val
    have h1 : char_to_val d < 16 := char_to_val_lt d
    simp only [List.length_cons, pow_succ]
    calc char_to_val d + 16 * hexlist_val rest
        < 16 + 16 * hexlist_val rest := by omega
      _ ≤ 16 * (hexlist_val rest + 1) := by ring_nf; omega
      _ ≤ 16 * 16 ^ rest.length := by
          have : hexlist_val rest + 1 ≤ 16 ^ rest.length := ih
          omega
      _ = 16 ^ rest.length * 16 := by ring

theorem testBit_low_high (a b k i : Nat) (ha : a < 2^k) :
    (a + b * 2^k).testBit i = if i < k then a.testBit i else b.testBit (i - k) := by
  by_cases h : i < k
  · rw [if_pos h, Nat.testBit_to_div_mod, Nat.testBit_to_div_mod]
    have hk : (2:Nat)^k = 2^i * 2^(k-i) := by
      rw [← pow_add]
      congr 1
      omega
    rw [hk, show a + b * (2^i * 2^(k-i)) = a + (b * 2^(k-i)) * 2^i by ring,
      Nat.add_mul_div_right _ _ (Nat.two_pow_pos i)]
    have hki : k - i = (k - i - 1) + 1 := by omega
    rw [hki, pow_succ, show b * (2^(k-i-1) * 2) = (b * 2^(k-i-1)) * 2 by ring,
      Nat.add_mul_mod_self_right]
  · rw [if_neg h, Nat.testBit_to_div_mod, Nat.testBit_to_div_mod]
    have h1 : (a + b * 2^k) / 2^i = b / 2^(i-k) := by
      have hik : (2:Nat)^i = 2^k * 2^(i-k) := by
        rw [← pow_add]
        congr 1
        omega
      rw [hik, ← Nat.div_div_eq_div_mul, Nat.add_mul_div_right _ _ (Nat.two_pow_pos k),
        Nat.div_eq_of_lt ha]
      simp
    rw [h1]

theorem lor_low_high (a b k : Nat) (ha : a < 2^k) : a ||| (b <<< k) = a + b * 2^k := by
  apply Nat.eq_of_testBit_eq
  intro i
  rw [Nat.testBit_lor, Nat.testBit_shiftLeft, testBit_low_high a b k i ha]
  by_cases h : i < k
  · rw [if_pos h]
    have hk : ¬ (k ≤ i) := by omega
    simp [hk]
  · rw [if_neg h]
    have hk : k ≤ i := by omega
    have hf : a.testBit i = false :=
      Nat.testBit_eq_false_of_lt (lt_of_lt_of_le ha (Nat.pow_le_pow_right (by norm_num) hk))
    simp [hk, hf]

theorem lor_shiftLeft (x y k : Nat) : (x ||| y) <<< k = (x <<< k) ||| (y <<< k) := by
  apply Nat.eq_of_testBit_eq
  intro i
  rw [Nat.testBit_lor, Nat.testBit_shiftLeft, Nat.testBit_shiftLeft, Nat.testBit_shiftLeft,
    Nat.testBit_lor]
  by_cases h : k ≤ i <;> simp [h]

theorem shiftLeft_shiftLeft (x a b : Nat) : (x <<< a) <<< b = x <<< (a + b) := by
  rw [Nat.shiftLeft_eq, Nat.shiftLeft_eq, Nat.shiftLeft_eq, pow_add]
  ring

theorem hexlist_val_cons (d : Char) (ds : List Char) :
    hexlist_val (d :: ds) = char_to_val d + 16 * hexlist_val ds := rfl

theorem hexlist_val_cons_or (d : Char) (ds : List Char) :
    hexlist_val (d :: ds) = char_to_val d ||| (hexlist_val ds <<< 4) := by
  rw [hexlist_val_cons, lor_low_high _ _ 4 (by simpa using char_to_val_lt d)]
  ring

theorem place_digits_eq (size : Nat) :
    ∀ ds cpu m, cpu + 4 * ds.length ≤ 8 * size →
      place_digits size ds cpu m = m ||| ((hexlist_val ds) <<< cpu) := by
  intro ds
  induction ds with
  | nil =>
    intro cpu m h
    unfold place_digits hexlist_val
    simp
  | cons d rest ih =>
    intro cpu m h
    unfold place_digits
    rw [set_bits4 size cpu _ m (by simp at h; omega) (char_to_val_lt d)]
    rw [ih (cpu+4) _ (by simp at h; omega)]
    rw [hexlist_val_cons_or, lor_shiftLeft, shiftLeft_shiftLeft, Nat.lor_assoc,
      Nat.add_comm 4 cpu]

theorem hexlist_val_testBit :
    ∀ (ds : List Char) (j k : Nat), k < 4 → j < ds.length →
      (hexlist_val ds).testBit (4*j + k) = (char_to_val (ds.getD j ' ')).testBit k := by
  intro ds
  induction ds with
  | nil => intro j k hk hj; simp at hj
  | cons d rest ih =>
    intro j k hk hj
    have hv : char_to_val d < 16 := char_to_val_lt d
    have hrw : hexlist_val (d :: rest) = char_to_val d + hexlist_val rest * 2^4 := by
      rw [hexlist_val_cons]
      ring
    rw [hrw, testBit_low_high _ _ 4 _ (by simpa using hv)]
    cases j with
    | zero =>
      rw [if_pos (by omega)]
      simp
    | succ j' =>
      rw [if_neg (by omega)]
      have he : 4 * (j' + 1) + k - 4 = 4 * j' + k := by omega
      rw [he, ih j' k hk (by simpa using hj)]
      simp

theorem hexlist_val_testBit_high (ds : List Char) (i : Nat) (h : 4 * ds.length ≤ i) :
    (hexlist_val ds).testBit i = false := by
  apply Nat.testBit_eq_false_of_lt
  calc hexlist_val ds < 16 ^ ds.length := hexlist_val_lt ds
    _ = 2 ^ (4 * ds.length) := by
        rw [show (16:Nat) = 2^4 by norm_num, ← pow_mul]
    _ ≤ 2 ^ i := Nat.pow_le_pow_right (by norm_num) h

theorem dropWhile_head_not {α : Type} (p : α → Bool) :
    ∀ (l : List α) (c : α) (tl : List α), l.dropWhile p = c :: tl → p c = false := by
  intro l
  induction l with
  | nil => intro c tl h; simp at h
  | cons x xs ih =>
    intro c tl h
    rw [List.dropWhile_cons] at h
    by_cases hp : p x = true
    · rw [if_pos hp] at h
      exact ih c tl h
    · rw [if_neg hp] at h
      cases h
      simpa using hp

theorem dropWhile_suffix_of_mem {α : Type} (p : α → Bool) :
    ∀ (u v : List α) (e : α), e ∈ u → p e = false → v <:+ (u ++ v).dropWhile p := by
  intro u
  induction u with
  | nil => intro v e he; simp at he
  | cons x xs ih =>
    intro v e he hpe
    rw [List.cons_append, List.dropWhile_cons]
    by_cases hp : p x = true
    · rw [if_pos hp]
      rcases List.mem_cons.mp he with rfl | hm
      · rw [hpe] at hp
        simp at hp
      · exact ih v e hm hpe
    · rw [if_neg hp]
      exact (List.suffix_append xs v).trans (List.suffix_cons x (xs ++ v))

theorem parse_rc_shape (size : Nat) (buf : List Char) :
    topology_cpumask_parse size buf = (1, 0) ∨ (topology_cpumask_parse size buf).1 = 0 := by
  unfold topology_cpumask_parse
  cases hB : buf.reverse.dropWhile (fun c => !(isxdigit c)) with
  | nil => exact Or.inl rfl
  | cons b tl =>
    cases hscan : cpumask_scan size (b :: tl) 0 0 with
    | none =>
      left
      dsimp only
      rw [hscan]
    | some m =>
      right
      dsimp only
      rw [hscan]

/-- C1: on a well-formed kernel bitmask string (only hex digits and commas,
    at least one hex digit) that fits in the mask, topology_cpumask_parse
    succeeds and sets exactly the bits given by scanning hex digits from the
    end: the j-th hex digit from the end with value v contributes bits 4j+k
    for each k < 4 set in v, and no other bit is set; both upper- and
    lower-case digit characters carry the same value. -/
theorem parse_wellformed (size : Nat) (buf : List Char)
    (hwf : ∀ c ∈ buf, isxdigit c = true ∨ c = ',')
    (hhex : ∃ c ∈ buf, isxdigit c = true)
    (hfit : 4 * (buf.filter (fun c => isxdigit c)).length ≤ 8 * size) :
    (topology_cpumask_parse size buf).1 = 0 ∧
    (∀ j k, j < (buf.filter (fun c => isxdigit c)).length → k < 4 →
      (topology_cpumask_parse size buf).2.testBit (4*j + k) =
        (char_to_val (((buf.filter (fun c => isxdigit c)).reverse).getD j ' ')).testBit k) ∧
    (∀ i, 4 * (buf.filter (fun c => isxdigit c)).length ≤ i →
      (topology_cpumask_parse size buf).2.testBit i = false) ∧
    (∀ v, v < 6 → char_to_val (Char.ofNat (97 + v)) = char_to_val (Char.ofNat (65 + v))) := by
  have hq : ∀ c : Char, ((fun c => !(isxdigit c)) c = false) ↔ isxdigit c = true := by
    intro c
    simp
  cases hB : buf.reverse.dropWhile (fun c => !(isxdigit c)) with
  | nil =>
    exfalso
    obtain ⟨c, hc, hxc⟩ := hhex
    have := List.dropWhile_eq_nil_iff.mp hB c (List.mem_reverse.mpr hc)
    rw [hxc] at this
    simp at this
  | cons b tl =>
    have hallB : ∀ c ∈ b :: tl, isxdigit c = true ∨ c = ',' := by
      intro c hc
      have hsub : (b :: tl) <:+ buf.reverse := by
        rw [← hB]
        exact List.dropWhile_suffix _
      exact hwf c (List.mem_reverse.mp (hsub.mem hc))
    have hfilt : (b :: tl).filter (fun c => isxdigit c) =
        (buf.filter (fun c => isxdigit c)).reverse := by
      have hsplit := List.takeWhile_append_dropWhile (fun c => !(isxdigit c)) buf.reverse
      have htake : (buf.reverse.takeWhile (fun c => !(isxdigit c))).filter
          (fun c => isxdigit c) = [] := by
        rw [List.filter_eq_nil_iff]
        intro a ha
        have := List.mem_takeWhile_imp ha
        simpa using this
      calc (b :: tl).filter (fun c => isxdigit c)
          = ((buf.reverse.takeWhile (fun c => !(isxdigit c))).filter (fun c => isxdigit c)) ++
            ((b :: tl).filter (fun c => isxdigit c)) := by rw [htake]; simp
        _ = (buf.reverse).filter (fun c => isxdigit c) := by
            rw [← List.filter_append, ← hB, hsplit]
        _ = (buf.filter (fun c => isxdigit c)).reverse := List.filter_reverse _ _
    have hparse : topology_cpumask_parse size buf =
        (0, place_digits size ((buf.filter (fun c => isxdigit c)).reverse) 0 0) := by
      unfold topology_cpumask_parse
      rw [hB]
      dsimp only
      rw [scan_ok size (b :: tl) 0 0 hallB, hfilt]
    have hlen : ((buf.filter (fun c => isxdigit c)).reverse).length =
        (buf.filter (fun c => isxdigit c)).length := by simp
    have hval : place_digits size ((buf.filter (fun c => isxdigit c)).reverse) 0 0 =
        hexlist_val ((buf.filter (fun c => isxdigit c)).reverse) := by
      rw [place_digits_eq size _ 0 0 (by rw [hlen]; omega)]
      simp
    refine ⟨by rw [hparse], ?_, ?_, by decide⟩
    · intro j k hj hk
      rw [hparse]
      simp only
      rw [hval]
      exact hexlist_val_testBit _ j k hk (by rw [hlen]; omega)
    · intro i hi
      rw [hparse]
      simp only
      rw [hval]
      exact hexlist_val_testBit_high _ i (by rw [hlen]; omega)

/-- witness for parse_wellformed on "a,3": two hex digits, mask 0xA3. -/
theorem parse_wellformed_witness :
    (topology_cpumask_parse 4 (String.data "a,3")).1 = 0 ∧
    (topology_cpumask_parse 4 (String.data "a,3")).2.testBit 0 = true ∧
    (topology_cpumask_parse 4 (String.data "a,3")).2.testBit 5 = true ∧
    (topology_cpumask_parse 4 (String.data "a,3")).2.testBit 8 = false := by
  have h := parse_wellformed 4 (String.data "a,3") (by decide) (by decide) (by decide)
  refine ⟨h.1, ?_, ?_, ?_⟩
  · have := h.2.1 0 0 (by decide) (by decide)
    rw [this]
    decide
  · have := h.2.1 1 1 (by decide) (by decide)
    rw [this]
    decide
  · exact h.2.2.1 8 (by decide)

/-- C2 (amended): topology_cpumask_parse fails exactly when the string has no
    hex digit at all, or some character that is neither a hex digit nor a
    comma occurs anywhere BEFORE a hex digit (i.e. between the beginning of
    the string and the last hex digit -- not merely between the first and the
    last hex digit); and whenever it fails the destination mask is zero. -/
theorem parse_fail_iff (size : Nat) (buf : List Char) :
    ((topology_cpumask_parse size buf).1 = 1 ↔
      ((∀ c ∈ buf, isxdigit c = false) ∨
       (∃ pre c post, buf = pre ++ c :: post ∧ isxdigit c = false ∧ c ≠ ',' ∧
         ∃ d ∈ post, isxdigit d = true))) ∧
    ((topology_cpumask_parse size buf).1 = 1 → (topology_cpumask_parse size buf).2 = 0) := by
  constructor
  · cases hB : buf.reverse.dropWhile (fun c => !(isxdigit c)) with
    | nil =>
      have hall : ∀ c ∈ buf, isxdigit c = false := by
        intro c hc
        have := List.dropWhile_eq_nil_iff.mp hB c (List.mem_reverse.mpr hc)
        simpa using this
      have hrc : (topology_cpumask_parse size buf).1 = 1 := by
        unfold topology_cpumask_parse
        rw [hB]
      exact iff_of_true hrc (Or.inl hall)
    | cons b tl =>
      have hbhex : isxdigit b = true := by
        have := dropWhile_head_not (fun c => !(isxdigit c)) buf.reverse b tl hB
        simpa using this
      have hrc : (topology_cpumask_parse size buf).1 = 1 ↔
          cpumask_scan size (b :: tl) 0 0 = none := by
        unfold topology_cpumask_parse
        rw [hB]
        dsimp only
        cases hscan : cpumask_scan size (b :: tl) 0 0 with
        | none => simp
        | some m => simp
      rw [hrc, scan_none_iff]
      constructor
      · rintro ⟨bad, hmem, hbad1, hbad2⟩
        right
        obtain ⟨u, w, huw⟩ := List.append_of_mem hmem
        obtain ⟨A, hA⟩ : ∃ A, buf.reverse.takeWhile (fun c => !(isxdigit c)) = A := ⟨_, rfl⟩
        have hrev : buf.reverse = A ++ (u ++ bad :: w) := by
          rw [← huw, ← hA, ← hB, List.takeWhile_append_dropWhile]
        have hbuf : buf = w.reverse ++ bad :: (u.reverse ++ A.reverse) := by
          have h2 := congrArg List.reverse hrev
          rw [List.reverse_reverse] at h2
          rw [h2]
          simp
        refine ⟨w.reverse, bad, _, hbuf, hbad1, hbad2, ?_⟩
        have hbne : bad ≠ b := by
          intro he
          rw [he, hbhex] at hbad1
          exact absurd hbad1 (by simp)
        have hbu : b ∈ u := by
          cases u with
          | nil =>
            simp at huw
            exact absurd huw.1.symm hbne
          | cons u0 urest =>
            have : u0 = b := by
              have := huw
              simp at this
              exact this.1.symm
            rw [← this]
            simp
        exact ⟨b, by simp [hbu], hbhex⟩
      · rintro (hall | ⟨pre, c, post, hsplit, hc1, hc2, d, hd, hdx⟩)
        · exact absurd hbhex (by
            have hb : b ∈ buf := by
              have hsub : (b :: tl) <:+ buf.reverse := by
                rw [← hB]
                exact List.dropWhile_suffix _
              exact List.mem_reverse.mp (hsub.mem (by simp))
            rw [hall b hb]
            simp)
        · have hrevsplit : buf.reverse = post.reverse ++ c :: pre.reverse := by
            rw [hsplit]
            simp
          have hsuf : (c :: pre.reverse) <:+ buf.reverse.dropWhile (fun c => !(isxdigit c)) := by
            rw [hrevsplit]
            exact dropWhile_suffix_of_mem _ post.reverse (c :: pre.reverse) d
              (List.mem_reverse.mpr hd) (by simp [hdx])
          rw [hB] at hsuf
          exact ⟨c, hsuf.mem (by simp), hc1, hc2⟩
  · intro h
    rcases parse_rc_shape size buf with hs | hs
    · rw [hs]
    · rw [hs] at h
      exact absurd h (by simp)

/-- witness for parse_fail_iff: "z1" fails with a zeroed mask because 'z'
    precedes the hex digit '1'. -/
theorem parse_fail_iff_witness :
    (topology_cpumask_parse 4 (String.data "z1")).1 = 1 ∧
    (topology_cpumask_parse 4 (String.data "z1")).2 = 0 := by
  have h := parse_fail_iff 4 (String.data "z1")
  have hrc : (topology_cpumask_parse 4 (String.data "z1")).1 = 1 := by
    apply h.1.mpr
    right
    exact ⟨[], 'z', ['1'], by decide, by decide, by decide, '1', by decide, by decide⟩
  exact ⟨hrc, h.2 hrc⟩

/-- counterexample to C2 as stated: "z1" contains a hex digit and no bad
    character lies between the first and the last hex digit (both are the
    single '1'), yet parsing fails -- the scan also rejects bad characters
    before the first hex digit. -/
theorem parse_fail_counterexample :
    topology_cpumask_parse 4 (String.data "z1") = (1, 0) ∧
    (∃ c ∈ String.data "z1", isxdigit c = true) ∧
    (∀ i, 1 ≤ i → i ≤ 1 → isxdigit ((String.data "z1").getD i ' ') = true) := by
  refine ⟨by decide, ⟨'1', by decide, by decide⟩, ?_⟩
  intro i h1 h2
  have : i = 1 := by omega
  rw [this]
  decide

/-- C10 (amended): the parser does not enforce the h{8} comma-group
    structure.  It succeeds exactly when the string contains a hex digit and
    every character from the BEGINNING of the string up to the last hex digit
    is a hex digit or a comma (groups of any digit count, commas anywhere,
    consecutive commas included); arbitrary non-hex characters after the last
    hex digit are ignored.  Concretely, "f,,1" parses to 0xf1 and "f zz" to
    0xf; but a non-hex, non-comma character before the first hex digit (still
    before the last one) is rejected, so acceptance is not described by the
    region from the first to the last hex digit alone. -/
theorem parse_relaxed_grammar (size : Nat) (buf : List Char) :
    ((topology_cpumask_parse size buf).1 = 0 ↔
      ((∃ c ∈ buf, isxdigit c = true) ∧
       (∀ pre c post, buf = pre ++ c :: post → (∃ d ∈ post, isxdigit d = true) →
         isxdigit c = true ∨ c = ','))) ∧
    topology_cpumask_parse 4 (String.data "f,,1") = (0, 241) ∧
    topology_cpumask_parse 4 (String.data "f zz") = (0, 15) := by
  refine ⟨?_, by decide, by decide⟩
  have hshape := parse_rc_shape size buf
  have hfail := parse_fail_iff size buf
  have hnot : (topology_cpumask_parse size buf).1 = 0 ↔
      ¬ ((topology_cpumask_parse size buf).1 = 1) := by
    rcases hshape with hs | hs
    · rw [hs]
      simp
    · rw [hs]
      simp
  rw [hnot, hfail.1]
  rw [not_or]
  constructor
  · rintro ⟨h1, h2⟩
    push_neg at h1
    obtain ⟨c, hc, hxc⟩ := h1
    refine ⟨⟨c, hc, by simpa using hxc⟩, ?_⟩
    intro pre x post hsplit hd
    by_contra hbad
    push_neg at hbad
    exact h2 ⟨pre, x, post, hsplit, by simpa using hbad.1, hbad.2, hd⟩
  · rintro ⟨⟨c, hc, hxc⟩, h2⟩
    constructor
    · intro hall
      rw [hall c hc] at hxc
      exact absurd hxc (by simp)
    · rintro ⟨pre, x, post, hsplit, hx1, hx2, hd⟩
      rcases h2 pre x post hsplit hd with h | h
      · rw [hx1] at h
        exact absurd h (by simp)
      · exact hx2 h

/-- witness for parse_relaxed_grammar: "ff,,3" has consecutive commas and a
    two-digit group yet parses successfully. -/
theorem parse_relaxed_grammar_witness :
    (topology_cpumask_parse 4 (String.data "ff,,3")).1 = 0 := by
  apply (parse_relaxed_grammar 4 (String.data "ff,,3")).1.mpr
  constructor
  · exact ⟨'3', by decide, by decide⟩
  · intro pre c post hsplit hd
    have hmem : c ∈ String.data "ff,,3" := by
      rw [hsplit]
      simp
    have : ∀ x ∈ String.data "ff,,3", isxdigit x = true ∨ x = ',' := by decide
    exact this c hmem

/-- counterexample to C10 as stated: in "x5" the region from the first to the
    last hex digit is just "5", all hex, yet parsing fails because of the 'x'
    before it. -/
theorem parse_relaxed_counterexample :
    topology_cpumask_parse 4 (String.data "x5") = (1, 0) ∧
    (∃ c ∈ String.data "x5", isxdigit c = true) ∧
    (∀ i, 1 ≤ i → i ≤ 1 → isxdigit ((String.data "x5").getD i ' ') = true) := by
  refine ⟨by decide, ⟨'5', by decide, by decide⟩, ?_⟩
  intro i h1 h2
  have : i = 1 := by omega
  rw [this]
  decide

/- ===================== C8: format/parse round trip ===================== -/

/- word extraction: cpuset_to_uint gives 32-bit slices of the mask -/

theorem cpuset_to_uint_spec (size m index : Nat) (h : 32 * (index + 1) ≤ 8 * size) :
    cpuset_to_uint size m index = (m >>> (32 * index)) % 2^32 := by
  unfold cpuset_to_uint
  have haux : ∀ n, n ≤ 32 →
      (List.range n).foldl
        (fun ret i => if cpuIssetS size (i + index * 32) m then ret + (1 <<< i) else ret) 0 =
        (m >>> (32 * index)) % 2^n := by
    intro n
    induction n with
    | zero => intro hn; simp [Nat.mod_one]
    | succ n ih =>
      intro hn
      rw [List.range_succ, List.foldl_append, ih (by omega)]
      simp only [List.foldl_cons, List.foldl_nil]
      have hin : n + index * 32 < 8 * size := by omega
      have hiss : cpuIssetS size (n + index * 32) m = m.testBit (32 * index + n) := by
        unfold cpuIssetS
        rw [show n + index * 32 = 32 * index + n by ring]
        have hd : decide (32 * index + n < 8 * size) = true := by
          rw [decide_eq_true_eq]
          omega
        rw [hd, Bool.true_and]
      rw [hiss]
      have hmp : (m >>> (32 * index)) % 2^(n+1) =
          (m >>> (32 * index)) % 2^n + 2^n * ((m >>> (32 * index)) / 2^n % 2) :=
        Nat.mod_pow_succ
      have htb : m.testBit (32 * index + n) = ((m >>> (32 * index)) / 2^n % 2 == 1) := by
        rw [← Nat.testBit_shiftRight, Nat.testBit_to_div_mod]
        rcases Nat.mod_two_eq_zero_or_one ((m >>> (32 * index)) / 2^n) with h0 | h1
        · simp [h0]
        · simp [h1]
      rw [htb]
      rcases Nat.mod_two_eq_zero_or_one ((m >>> (32 * index)) / 2^n) with h0 | h1
      · rw [h0] at hmp ⊢
        simp [hmp]
      · rw [h1] at hmp ⊢
        rw [Nat.shiftLeft_eq, Nat.one_mul]
        simp [hmp]
  exact haux 32 (by omega)

/- sprintf output digit values -/

theorem hexRevDigits_zero : hexRevDigits 0 = [] := by
  rw [hexRevDigits]
  simp

theorem hexRevDigits_pos (w : Nat) (h : w ≠ 0) :
    hexRevDigits w = (w % 16) :: hexRevDigits (w / 16) := by
  rw [hexRevDigits]
  simp [h]

theorem hexRevDigits_mem_lt (w : Nat) : ∀ d ∈ hexRevDigits w, d < 16 := by
  induction w using Nat.strong_induction_on with
  | _ w ih =>
    intro d hd
    by_cases hw : w = 0
    · rw [hw, hexRevDigits_zero] at hd
      simp at hd
    · rw [hexRevDigits_pos w hw] at hd
      rcases List.mem_cons.mp hd with rfl | hm
      · exact Nat.mod_lt _ (by omega)
      · exact ih (w / 16) (Nat.div_lt_self (by omega) (by omega)) d hm

theorem char_to_val_digitChar (d : Nat) (h : d < 16) :
    char_to_val (Nat.digitChar d) = d := by
  interval_cases d <;> decide

theorem isxdigit_digitChar (d : Nat) (h : d < 16) :
    isxdigit (Nat.digitChar d) = true := by
  interval_cases d <;> decide

theorem hexlist_val_cons2 (d : Char) (ds : List Char) :
    hexlist_val (d :: ds) = char_to_val d + 16 * hexlist_val ds := rfl

theorem hexRevDigits_val (w : Nat) :
    hexlist_val ((hexRevDigits w).map Nat.digitChar) = w := by
  induction w using Nat.strong_induction_on with
  | _ w ih =>
    by_cases hw : w = 0
    · rw [hw, hexRevDigits_zero]
      rfl
    · rw [hexRevDigits_pos w hw, List.map_cons, hexlist_val_cons2,
        char_to_val_digitChar _ (Nat.mod_lt _ (by omega)),
        ih (w / 16) (Nat.div_lt_self (by omega) (by omega))]
      omega

theorem hexRevDigits_len_le : ∀ (k : Nat) (w : Nat), w < 16^k → (hexRevDigits w).length ≤ k := by
  intro k
  induction k with
  | zero =>
    intro w hw
    have : w = 0 := by simpa using hw
    rw [this, hexRevDigits_zero]
    simp
  | succ k ih =>
    intro w hw
    by_cases hw0 : w = 0
    · rw [hw0, hexRevDigits_zero]
      simp
    · rw [hexRevDigits_pos w hw0]
      have hdiv : w / 16 < 16^k := by
        rw [Nat.div_lt_iff_lt_mul (by omega)]
        calc w < 16^(k+1) := hw
          _ = 16^k * 16 := by ring
      have := ih (w / 16) hdiv
      simp only [List.length_cons]
      omega

theorem hexlist_val_append : ∀ (a b : List Char),
    hexlist_val (a ++ b) = hexlist_val a + 16^(a.length) * hexlist_val b := by
  intro a
  induction a with
  | nil => intro b; simp [hexlist_val]
  | cons d rest ih =>
    intro b
    rw [List.cons_append, hexlist_val_cons2, hexlist_val_cons2, ih]
    simp only [List.length_cons]
    ring

theorem hexlist_val_replicate_zero : ∀ k, hexlist_val (List.replicate k '0') = 0 := by
  intro k
  induction k with
  | zero => rfl
  | succ k ih =>
    rw [List.replicate_succ, hexlist_val_cons2, ih]
    decide

theorem sprintf_hex_spec (w : Nat) (hw : w ≠ 0) :
    (sprintf_hex w).reverse = (hexRevDigits w).map Nat.digitChar ∧
    (∀ c ∈ sprintf_hex w, isxdigit c = true) ∧
    hexlist_val ((sprintf_hex w).reverse) = w := by
  have hrev : (sprintf_hex w).reverse = (hexRevDigits w).map Nat.digitChar := by
    unfold sprintf_hex
    rw [if_neg hw, ← List.map_reverse, List.reverse_reverse]
  refine ⟨hrev, ?_, by rw [hrev]; exact hexRevDigits_val w⟩
  intro c hc
  unfold sprintf_hex at hc
  rw [if_neg hw] at hc
  obtain ⟨d, hd, rfl⟩ := List.mem_map.mp hc
  exact isxdigit_digitChar d (hexRevDigits_mem_lt w d (List.mem_reverse.mp hd))

theorem sprintf_hex08_spec (w : Nat) (hw : w < 2^32) :
    (∀ c ∈ sprintf_hex08 w, isxdigit c = true) ∧
    (sprintf_hex08 w).length = 8 ∧
    hexlist_val ((sprintf_hex08 w).reverse) = w := by
  have hlen : (hexRevDigits w).length ≤ 8 := by
    apply hexRevDigits_len_le 8 w
    calc w < 2^32 := hw
      _ = 16^8 := by norm_num
  have hrev : (sprintf_hex08 w).reverse =
      (hexRevDigits w).map Nat.digitChar ++ List.replicate (8 - (hexRevDigits w).length) '0' := by
    unfold sprintf_hex08
    rw [← List.map_reverse, List.reverse_append, List.reverse_reverse, List.reverse_replicate,
      List.map_append]
    rw [List.map_replicate]
    rfl
  refine ⟨?_, ?_, ?_⟩
  · intro c hc
    unfold sprintf_hex08 at hc
    obtain ⟨d, hd, rfl⟩ := List.mem_map.mp hc
    rcases List.mem_append.mp hd with hm | hm
    · have : d = 0 := List.eq_of_mem_replicate hm
      rw [this]
      decide
    · exact isxdigit_digitChar d (hexRevDigits_mem_lt w d (List.mem_reverse.mp hm))
  · unfold sprintf_hex08
    simp only [List.length_map, List.length_append, List.length_replicate, List.length_reverse]
    omega
  · rw [hrev, hexlist_val_append, hexlist_val_replicate_zero, hexRevDigits_val]
    simp

/- digits_rev combinators -/

theorem digits_rev_append (a b : List Char) :
    digits_rev (a ++ b) = digits_rev b ++ digits_rev a := by
  unfold digits_rev
  rw [List.reverse_append, List.filter_append]

theorem digits_rev_nil : digits_rev [] = [] := rfl

theorem digits_rev_comma_opt (c : Bool) :
    digits_rev (if c then [','] else []) = [] := by
  cases c <;> decide

theorem digits_rev_all_hex (l : List Char) (h : ∀ c ∈ l, isxdigit c = true) :
    digits_rev l = l.reverse := by
  unfold digits_rev
  rw [List.filter_eq_self]
  intro a ha
  exact h a (List.mem_reverse.mp ha)

theorem digits_rev_len_pos_ne_nil (l : List Char) (h : 0 < (digits_rev l).length) :
    l ≠ [] := by
  intro he
  rw [he] at h
  simp [digits_rev] at h

theorem dropWhile_eq_self_all (p : Char → Bool) (l : List Char)
    (h : ∀ c ∈ l, p c = false) : l.dropWhile p = l := by
  cases l with
  | nil => rfl
  | cons x xs =>
    rw [List.dropWhile_cons, if_neg (by rw [h x (by simp)]; simp)]

theorem length_dropWhile_le2 (p : Char → Bool) :
    ∀ l : List Char, (l.dropWhile p).length ≤ l.length := by
  intro l
  induction l with
  | nil => simp
  | cons x xs ih =>
    rw [List.dropWhile_cons]
    by_cases hp : p x = true
    · rw [if_pos hp]
      simp only [List.length_cons]
      omega
    · rw [if_neg hp]

theorem dropWhile_self_head (p : Char → Bool) (x : Char) (xs : List Char)
    (h : (x :: xs).dropWhile p = x :: xs) : p x = false := by
  rcases Bool.eq_false_or_eq_true (p x) with h1 | h1
  · rw [List.dropWhile_cons, if_pos h1] at h
    have hlen := congrArg List.length h
    have hle := length_dropWhile_le2 p xs
    simp only [List.length_cons] at hlen
    omega
  · exact h1

theorem dropWhile_append_self (p : Char → Bool) (u v : List Char)
    (hu : u.dropWhile p = u) (hune : u ≠ []) : (u ++ v).dropWhile p = u ++ v := by
  cases u with
  | nil => exact absurd rfl hune
  | cons x xs =>
    have hpx : p x = false := dropWhile_self_head p x xs hu
    rw [List.cons_append, List.dropWhile_cons, if_neg (by rw [hpx]; simp)]

theorem fmt_piece_cases (size m : Nat) (commas : Bool) (idx : Nat) (seen : Bool) :
    (cpuset_to_uint size m idx = 0 ∧ seen = false ∧
      fmt_word_piece size m commas idx seen = []) ∨
    (seen = true ∧ fmt_word_piece size m commas idx seen =
      sprintf_hex08 (cpuset_to_uint size m idx) ++
        (if (!(idx == 0)) && commas then [','] else [])) ∨
    (seen = false ∧ cpuset_to_uint size m idx ≠ 0 ∧
      fmt_word_piece size m commas idx seen =
        sprintf_hex (cpuset_to_uint size m idx) ++
          (if (!(idx == 0)) && commas then [','] else [])) := by
  unfold fmt_word_piece
  cases seen with
  | true =>
    right
    left
    refine ⟨rfl, ?_⟩
    simp
  | false =>
    by_cases hw : cpuset_to_uint size m idx = 0
    · left
      refine ⟨hw, rfl, ?_⟩
      simp [hw]
    · right
      right
      refine ⟨rfl, hw, ?_⟩
      rw [if_neg (by simpa using hw)]
      simp

theorem fmt_seen_step_eq (size m idx : Nat) (seen : Bool) :
    fmt_seen_step size m idx seen = (seen || !(cpuset_to_uint size m idx == 0)) := rfl

theorem format_words_zero (size m : Nat) (commas : Bool) (seen : Bool) :
    format_words size m commas 0 seen =
      (fmt_word_piece size m commas 0 seen, fmt_seen_step size m 0 seen) := rfl

theorem format_words_succ (size m : Nat) (commas : Bool) (idx : Nat) (seen : Bool) :
    format_words size m commas (idx+1) seen =
      (fmt_word_piece size m commas (idx+1) seen ++
        (format_words size m commas idx (fmt_seen_step size m (idx+1) seen)).1,
       (format_words size m commas idx (fmt_seen_step size m (idx+1) seen)).2) := rfl

theorem mod_slice (m k : Nat) :
    m % 2^(32*(k+1)) = m % 2^(32*k) + 2^(32*k) * (m / 2^(32*k) % 2^32) := by
  have e1 : (2:Nat)^(32*(k+1)) = ((2:Nat)^32)^(k+1) := by rw [← pow_mul]
  have e2 : (2:Nat)^(32*k) = ((2:Nat)^32)^k := by rw [← pow_mul]
  rw [e1, e2, Nat.mod_pow_succ]

theorem word_as_div (size m k : Nat) (h : 32 * (k + 1) ≤ 8 * size) :
    cpuset_to_uint size m k = m / 2^(32*k) % 2^32 := by
  rw [cpuset_to_uint_spec size m k h, Nat.shiftRight_eq_div_pow]

theorem pow16_eq (k : Nat) : (16:Nat)^(8*k) = 2^(32*k) := by
  rw [show (16:Nat) = 2^4 by norm_num, ← pow_mul, show 4*(8*k) = 32*k by ring]

set_option maxHeartbeats 1600000 in
theorem format_words_spec (size m : Nat) (commas : Bool) :
    ∀ idx, 32 * (idx + 1) ≤ 8 * size → ∀ seen,
      (∀ c ∈ (format_words size m commas idx seen).1, isxdigit c = true ∨ c = ',') ∧
      ((format_words size m commas idx seen).1.reverse.dropWhile (fun c => !(isxdigit c)) =
        (format_words size m commas idx seen).1.reverse) ∧
      (seen = true → (digits_rev (format_words size m commas idx seen).1).length = 8 * (idx + 1)) ∧
      (digits_rev (format_words size m commas idx seen).1).length ≤ 8 * (idx + 1) ∧
      hexlist_val (digits_rev (format_words size m commas idx seen).1) = m % 2^(32 * (idx + 1)) ∧
      (format_words size m commas idx seen).2 = (seen || !(m % 2^(32 * (idx + 1)) == 0)) ∧
      ((format_words size m commas idx seen).2 = false →
        (format_words size m commas idx seen).1 = []) := by
  intro idx
  induction idx with
  | zero =>
    intro h seen
    rw [format_words_zero]
    have hw0 : cpuset_to_uint size m 0 = m % 2^32 := by
      rw [word_as_div size m 0 (by omega)]
      simp
    have hopt : (if (!((0:Nat) == 0)) && commas then [','] else []) = ([] : List Char) := by
      simp
    rcases fmt_piece_cases size m commas 0 seen with ⟨hz, hs, hp⟩ | ⟨hs, hp⟩ | ⟨hs, hz, hp⟩
    · subst hs
      rw [hp]
      refine ⟨by simp, by simp, by simp, ?_, ?_, ?_, fun _ => rfl⟩
      · rw [digits_rev_nil]
        simp
      · rw [digits_rev_nil]
        show 0 = m % 2^(32*1)
        rw [show 32*1 = 32 by ring, ← hw0, hz]
      · rw [fmt_seen_step_eq]
        rw [show 32*1 = 32 by ring, ← hw0]
    · subst hs
      rw [hp, hopt, List.append_nil]
      obtain ⟨hhex, hlen8, hval⟩ := sprintf_hex08_spec (cpuset_to_uint size m 0)
        (by rw [hw0]; exact Nat.mod_lt _ (by positivity))
      have hdg : digits_rev (sprintf_hex08 (cpuset_to_uint size m 0)) =
          (sprintf_hex08 (cpuset_to_uint size m 0)).reverse :=
        digits_rev_all_hex _ hhex
      refine ⟨fun c hc => Or.inl (hhex c hc), ?_, ?_, ?_, ?_, ?_, ?_⟩
      · apply dropWhile_eq_self_all
        intro c hc
        rw [hhex c (List.mem_reverse.mp hc)]
        simp
      · intro _
        rw [hdg]
        simp only [List.length_reverse, hlen8]
      · rw [hdg]
        simp only [List.length_reverse, hlen8]
        omega
      · rw [hdg, hval, hw0]
      · rfl
      · intro hx
        rw [fmt_seen_step_eq] at hx
        exact absurd hx (by simp)
    · subst hs
      rw [hp, hopt, List.append_nil]
      obtain ⟨hrev, hhex, hval⟩ := sprintf_hex_spec (cpuset_to_uint size m 0) hz
      have hdg : digits_rev (sprintf_hex (cpuset_to_uint size m 0)) =
          (sprintf_hex (cpuset_to_uint size m 0)).reverse :=
        digits_rev_all_hex _ hhex
      have hlen8 : (sprintf_hex (cpuset_to_uint size m 0)).length ≤ 8 := by
        have hle := congrArg List.length hrev
        simp only [List.length_reverse, List.length_map] at hle
        rw [hle]
        apply hexRevDigits_len_le 8
        rw [hw0, show (16:Nat)^8 = 2^32 by norm_num]
        exact Nat.mod_lt _ (by positivity)
      have hwz : (cpuset_to_uint size m 0 == 0) = false := by
        simpa using hz
      refine ⟨fun c hc => Or.inl (hhex c hc), ?_, by simp, ?_, ?_, ?_, ?_⟩
      · apply dropWhile_eq_self_all
        intro c hc
        rw [hhex c (List.mem_reverse.mp hc)]
        simp
      · rw [hdg]
        simp only [List.length_reverse]
        omega
      · rw [hdg, hval, hw0]
      · rw [fmt_seen_step_eq, show 32*1 = 32 by ring, ← hw0, hwz]
      · intro hx
        rw [fmt_seen_step_eq, hwz] at hx
        exact absurd hx (by simp)
  | succ idx ih =>
    intro h seen
    have h' : 32 * (idx + 1) ≤ 8 * size := by omega
    rw [format_words_succ]
    dsimp only
    obtain ⟨iha, ihb, ihc, ihd, ihe, ihf, ihg⟩ :=
      ih h' (fmt_seen_step size m (idx+1) seen)
    have hsplit : m % 2^(32*(idx+1+1)) =
        m % 2^(32*(idx+1)) + 2^(32*(idx+1)) * (cpuset_to_uint size m (idx+1)) := by
      rw [word_as_div size m (idx+1) h]
      exact mod_slice m (idx+1)
    rcases fmt_piece_cases size m commas (idx+1) seen with ⟨hz, hs, hp⟩ | ⟨hs, hp⟩ | ⟨hs, hz, hp⟩
    · subst hs
      have hseen' : fmt_seen_step size m (idx+1) false = false := by
        rw [fmt_seen_step_eq, hz]
        simp
      rw [hp, List.nil_append, hseen']
      rw [hseen'] at iha ihb ihc ihd ihe ihf ihg
      have hmod : m % 2^(32*(idx+1+1)) = m % 2^(32*(idx+1)) := by
        rw [hsplit, hz]
        ring
      refine ⟨iha, ihb, by simp, by omega, by rw [ihe, hmod], ?_, ihg⟩
      rw [ihf, hmod]
    · subst hs
      have hseen' : fmt_seen_step size m (idx+1) true = true := by
        rw [fmt_seen_step_eq]
        simp
      rw [hseen']
      rw [hseen'] at iha ihb ihc ihd ihe ihf ihg
      have hcnt := ihc rfl
      obtain ⟨hhex, hlen8, hval⟩ := sprintf_hex08_spec (cpuset_to_uint size m (idx+1))
        (by rw [word_as_div size m (idx+1) h]; exact Nat.mod_lt _ (by positivity))
      have hpall : ∀ c ∈ fmt_word_piece size m commas (idx+1) true,
          isxdigit c = true ∨ c = ',' := by
        intro c hc
        rw [hp] at hc
        rcases List.mem_append.mp hc with hm | hm
        · exact Or.inl (hhex c hm)
        · right
          rcases Bool.eq_false_or_eq_true ((!((idx+1 : Nat) == 0)) && commas) with hb | hb
          · rw [hb] at hm
            simpa using hm
          · rw [hb] at hm
            simp at hm
      have hdgp : digits_rev (fmt_word_piece size m commas (idx+1) true) =
          (sprintf_hex08 (cpuset_to_uint size m (idx+1))).reverse := by
        rw [hp, digits_rev_append, digits_rev_comma_opt, List.nil_append,
          digits_rev_all_hex _ hhex]
      have hrne : (format_words size m commas idx true).1 ≠ [] := by
        apply digits_rev_len_pos_ne_nil
        rw [hcnt]
        omega
      refine ⟨?_, ?_, ?_, ?_, ?_, ?_, by simp [ihf]⟩
      · intro c hc
        rcases List.mem_append.mp hc with hm | hm
        · exact hpall c hm
        · exact iha c hm
      · rw [List.reverse_append]
        apply dropWhile_append_self _ _ _ ihb (by simpa using hrne)
      · intro _
        rw [digits_rev_append, List.length_append, hcnt, hdgp]
        simp only [List.length_reverse, hlen8]
        ring
      · rw [digits_rev_append, List.length_append, hdgp]
        simp only [List.length_reverse, hlen8]
        omega
      · rw [digits_rev_append, hexlist_val_append, ihe, hcnt, hdgp, hval, hsplit, pow16_eq]
      · rw [ihf]
        simp only [Bool.true_or]
    · subst hs
      have hseen' : fmt_seen_step size m (idx+1) false = true := by
        rw [fmt_seen_step_eq]
        simpa using hz
      rw [hseen']
      rw [hseen'] at iha ihb ihc ihd ihe ihf ihg
      have hcnt := ihc rfl
      obtain ⟨hrevx, hhex, hval⟩ := sprintf_hex_spec (cpuset_to_uint size m (idx+1)) hz
      have hlen8 : (sprintf_hex (cpuset_to_uint size m (idx+1))).length ≤ 8 := by
        have hl := congrArg List.length hrevx
        simp only [List.length_reverse, List.length_map] at hl
        rw [hl]
        apply hexRevDigits_len_le 8
        rw [word_as_div size m (idx+1) h, show (16:Nat)^8 = 2^32 by norm_num]
        exact Nat.mod_lt _ (by positivity)
      have hpall : ∀ c ∈ fmt_word_piece size m commas (idx+1) false,
          isxdigit c = true ∨ c = ',' := by
        intro c hc
        rw [hp] at hc
        rcases List.mem_append.mp hc with hm | hm
        · exact Or.inl (hhex c hm)
        · right
          rcases Bool.eq_false_or_eq_true ((!((idx+1 : Nat) == 0)) && commas) with hb | hb
          · rw [hb] at hm
            simpa using hm
          · rw [hb] at hm
            simp at hm
      have hdgp : digits_rev (fmt_word_piece size m commas (idx+1) false) =
          (sprintf_hex (cpuset_to_uint size m (idx+1))).reverse := by
        rw [hp, digits_rev_append, digits_rev_comma_opt, List.nil_append,
          digits_rev_all_hex _ hhex]
      have hrne : (format_words size m commas idx true).1 ≠ [] := by
        apply digits_rev_len_pos_ne_nil
        rw [hcnt]
        omega
      have hmz : (m % 2^(32*(idx+1+1)) == 0) = false := by
        have : m % 2^(32*(idx+1+1)) ≠ 0 := by
          rw [hsplit]
          have : (0:Nat) < 2^(32*(idx+1)) * cpuset_to_uint size m (idx+1) := by
            apply Nat.mul_pos (by positivity) (Nat.pos_of_ne_zero hz)
          omega
        simpa using this
      refine ⟨?_, ?_, by simp, ?_, ?_, ?_, by simp [ihf]⟩
      · intro c hc
        rcases List.mem_append.mp hc with hm | hm
        · exact hpall c hm
        · exact iha c hm
      · rw [List.reverse_append]
        apply dropWhile_append_self _ _ _ ihb (by simpa using hrne)
      · rw [digits_rev_append, List.length_append, hdgp, hcnt]
        simp only [List.length_reverse]
        omega
      · rw [digits_rev_append, hexlist_val_append, ihe, hcnt, hdgp, hval, hsplit, pow16_eq]
      · rw [ihf, hmz]
        simp only [Bool.true_or, Bool.false_or, Bool.not_false]

theorem parse_value (size : Nat) (buf : List Char)
    (hwf : ∀ c ∈ buf, isxdigit c = true ∨ c = ',')
    (hhex : ∃ c ∈ buf, isxdigit c = true)
    (hfit : 4 * (buf.filter (fun c => isxdigit c)).length ≤ 8 * size) :
    topology_cpumask_parse size buf =
      (0, hexlist_val ((buf.filter (fun c => isxdigit c)).reverse)) := by
  cases hB : buf.reverse.dropWhile (fun c => !(isxdigit c)) with
  | nil =>
    exfalso
    obtain ⟨c, hc, hxc⟩ := hhex
    have := List.dropWhile_eq_nil_iff.mp hB c (List.mem_reverse.mpr hc)
    rw [hxc] at this
    simp at this
  | cons b tl =>
    have hallB : ∀ c ∈ b :: tl, isxdigit c = true ∨ c = ',' := by
      intro c hc
      have hsub : (b :: tl) <:+ buf.reverse := by
        rw [← hB]
        exact List.dropWhile_suffix _
      exact hwf c (List.mem_reverse.mp (hsub.mem hc))
    have hfilt : (b :: tl).filter (fun c => isxdigit c) =
        (buf.filter (fun c => isxdigit c)).reverse := by
      have hsplit := List.takeWhile_append_dropWhile (fun c => !(isxdigit c)) buf.reverse
      have htake : (buf.reverse.takeWhile (fun c => !(isxdigit c))).filter
          (fun c => isxdigit c) = [] := by
        rw [List.filter_eq_nil_iff]
        intro a ha
        have := List.mem_takeWhile_imp ha
        simpa using this
      calc (b :: tl).filter (fun c => isxdigit c)
          = ((buf.reverse.takeWhile (fun c => !(isxdigit c))).filter (fun c => isxdigit c)) ++
            ((b :: tl).filter (fun c => isxdigit c)) := by rw [htake]; simp
        _ = (buf.reverse).filter (fun c => isxdigit c) := by
            rw [← List.filter_append, ← hB, hsplit]
        _ = (buf.filter (fun c => isxdigit c)).reverse := List.filter_reverse _ _
    have hparse : topology_cpumask_parse size buf =
        (0, place_digits size ((buf.filter (fun c => isxdigit c)).reverse) 0 0) := by
      unfold topology_cpumask_parse
      rw [hB]
      dsimp only
      rw [scan_ok size (b :: tl) 0 0 hallB, hfilt]
    have hlen : ((buf.filter (fun c => isxdigit c)).reverse).length =
        (buf.filter (fun c => isxdigit c)).length := by simp
    rw [hparse, place_digits_eq size _ 0 0 (by rw [hlen]; omega)]
    simp

/-- C8: round trip.  For every mask width that is a positive multiple of four
    bytes (size = 4*n bytes, n ≥ 1) and every bit pattern m over [0, 8*size)
    (m < 2^(32*n)), parsing the string produced by format_cpuset (with or
    without the comma separators) succeeds and returns exactly m. -/
theorem parse_format_roundtrip (n m : Nat) (commas : Bool)
    (hn : 1 ≤ n) (hm : m < 2^(32*n)) :
    topology_cpumask_parse (4*n) (format_cpuset (4*n) m commas) = (0, m) := by
  have hnw : (if 4*n > 4 then (4*n)/4 else 1) = n := by
    by_cases h : 4*n > 4
    · rw [if_pos h]
      omega
    · rw [if_neg h]
      omega
  have hfc : format_cpuset (4*n) m commas =
      (if (format_words (4*n) m commas (n-1) false).2 = true
       then (format_words (4*n) m commas (n-1) false).1
       else (format_words (4*n) m commas (n-1) false).1 ++ ['0']) := by
    unfold format_cpuset
    rw [hnw]
  obtain ⟨sa, sb, sc, sd, se, sf, sg⟩ :=
    format_words_spec (4*n) m commas (n-1) (by omega) false
  have hmod : m % 2^(32*(n-1+1)) = m := by
    rw [show n-1+1 = n by omega]
    exact Nat.mod_eq_of_lt hm
  have hdg : digits_rev (format_words (4*n) m commas (n-1) false).1 =
      ((format_words (4*n) m commas (n-1) false).1.filter (fun c => isxdigit c)).reverse := by
    unfold digits_rev
    exact List.filter_reverse _ _
  by_cases hm0 : m = 0
  · subst hm0
    have hr2 : (format_words (4*n) 0 commas (n-1) false).2 = false := by
      rw [sf]
      simp
    rw [hfc, if_neg (by rw [hr2]; simp), sg hr2, List.nil_append]
    have h1 : (['0'].filter (fun c => isxdigit c)) = ['0'] := by decide
    rw [parse_value (4*n) ['0'] (by decide) (by decide)
      (by rw [h1]; simp only [List.length_singleton]; omega)]
    rw [h1]
    decide
  · have hr2 : (format_words (4*n) m commas (n-1) false).2 = true := by
      rw [sf, hmod]
      simp [hm0]
    rw [hfc, if_pos hr2]
    have hlenf : ((format_words (4*n) m commas (n-1) false).1.filter
        (fun c => isxdigit c)).length =
        (digits_rev (format_words (4*n) m commas (n-1) false).1).length := by
      rw [hdg]
      simp
    have hne : digits_rev (format_words (4*n) m commas (n-1) false).1 ≠ [] := by
      intro hnil
      rw [hnil] at se
      exact hm0 (by rw [← hmod, ← se]; rfl)
    obtain ⟨c, hc⟩ := List.exists_mem_of_ne_nil _ hne
    have hcx : isxdigit c = true ∧ c ∈ (format_words (4*n) m commas (n-1) false).1 := by
      unfold digits_rev at hc
      have := List.mem_filter.mp hc
      exact ⟨this.2, List.mem_reverse.mp this.1⟩
    rw [parse_value (4*n) _ sa ⟨c, hcx.2, hcx.1⟩ (by rw [hlenf]; omega)]
    rw [← hdg, se, hmod]

/-- witness for parse_format_roundtrip at n = 2 (8-byte mask), m = 2^33 + 5:
    the formatted string is "2,00000005" and it parses back to m. -/
theorem parse_format_roundtrip_witness :
    1 ≤ 2 ∧ 2^33 + 5 < 2^(32*2) ∧
    topology_cpumask_parse (4*2) (format_cpuset (4*2) (2^33+5) true) = (0, 2^33+5) :=
  ⟨by decide, by decide, parse_format_roundtrip 2 (2^33+5) true (by decide) (by decide)⟩

/- ===================== C6, C7: build invariants ===================== -/

/- mask_union lemmas -/

theorem mask_union_nil (ents : List Ent) : mask_union ents [] = 0 := rfl

theorem mask_union_cons (ents : List Ent) (c : Nat) (cs : List Nat) :
    mask_union ents (c :: cs) = (ents.getD c default).cpumask ||| mask_union ents cs := rfl

theorem mask_union_congr (e1 e2 : List Ent) :
    ∀ cs, (∀ c ∈ cs, (e1.getD c default).cpumask = (e2.getD c default).cpumask) →
      mask_union e1 cs = mask_union e2 cs := by
  intro cs
  induction cs with
  | nil => intro _; rfl
  | cons c rest ih =>
    intro h
    rw [mask_union_cons, mask_union_cons, h c (by simp),
      ih (fun x hx => h x (by simp [hx]))]

theorem lor_left_comm2 (a b c : Nat) : a ||| (b ||| c) = b ||| (a ||| c) := by
  rw [← Nat.lor_assoc, Nat.lor_comm a b, Nat.lor_assoc]

theorem mask_union_set_not_mem (ents : List Ent) (i : Nat) (x : Ent) :
    ∀ cs, i ∉ cs → mask_union (ents.set i x) cs = mask_union ents cs := by
  intro cs hni
  apply mask_union_congr
  intro c hc
  rw [getD_set_ne _ _ _ _ (by intro he; rw [he] at hni; exact hni hc)]

theorem mask_union_split (ents : List Ent) (i : Nat) (x : Ent) :
    ∀ cs, cs.Nodup → i ∈ cs → i < ents.length →
      ∃ R, mask_union ents cs = (ents.getD i default).cpumask ||| R ∧
        mask_union (ents.set i x) cs = x.cpumask ||| R := by
  intro cs
  induction cs with
  | nil => intro _ hm _; simp at hm
  | cons c rest ih =>
    intro hnd hm hlen
    rcases List.mem_cons.mp hm with rfl | hmr
    · have hni : i ∉ rest := (List.nodup_cons.mp hnd).1
      refine ⟨mask_union ents rest, rfl, ?_⟩
      rw [mask_union_cons, getD_set_self _ _ _ hlen, mask_union_set_not_mem _ _ _ _ hni]
    · have hci : c ≠ i := by
        intro he
        exact (List.nodup_cons.mp hnd).1 (he ▸ hmr)
      obtain ⟨R, h1, h2⟩ := ih (List.nodup_cons.mp hnd).2 hmr hlen
      refine ⟨(ents.getD c default).cpumask ||| R, ?_, ?_⟩
      · rw [mask_union_cons, h1]
        exact lor_left_comm2 _ _ _
      · rw [mask_union_cons, getD_set_ne _ _ _ _ (fun he => hci he.symm), h2]
        exact lor_left_comm2 _ _ _

theorem cpuSetS_lor_left (size bit x y : Nat) :
    cpuSetS size bit (x ||| y) = cpuSetS size bit x ||| y := by
  rw [cpuSetS_or, cpuSetS_or, Nat.lor_assoc, Nat.lor_comm y _, ← Nat.lor_assoc]

/- ent_wf and mask_inv transfer along field-preserving updates -/

theorem ent_wf_of_fields (e1 e2 : List Ent)
    (hl : e1.length = e2.length)
    (hp : ∀ j, (e1.getD j default).parent = (e2.getD j default).parent)
    (hc : ∀ j, (e1.getD j default).children = (e2.getD j default).children)
    (h : ent_wf e2) : ent_wf e1 := by
  obtain ⟨h1, h2, h3⟩ := h
  refine ⟨?_, ?_, ?_⟩
  · intro j hj p hpj
    rw [hp j] at hpj
    obtain ⟨ha, hb⟩ := h1 j (by omega) p hpj
    exact ⟨ha, by rw [hc p]; exact hb⟩
  · intro j hj c hcj
    rw [hc j] at hcj
    obtain ⟨ha, hb, hcc⟩ := h2 j (by omega) c hcj
    exact ⟨ha, by omega, by rw [hp c]; exact hcc⟩
  · intro j hj
    rw [hc j]
    exact h3 j (by omega)

/- preservation of the mask invariant by topo_procent_cpumask_set -/

theorem tpcs_preserves (size bit : Nat) :
    ∀ fuel ents i,
      ent_wf ents → i < ents.length → i < fuel →
      (∀ j, j < ents.length → j ≠ i →
          (ents.getD j default).level ≠ TOPOLOGY_THREAD →
          (ents.getD j default).cpumask =
            mask_union ents (ents.getD j default).children) →
      ((ents.getD i default).level ≠ TOPOLOGY_THREAD →
          mask_union ents ((ents.getD i default).children) =
            cpuSetS size bit (ents.getD i default).cpumask) →
      mask_inv (topo_procent_cpumask_set size fuel ents i bit) := by
  intro fuel
  induction fuel with
  | zero => intro ents i _ _ hlt; omega
  | succ f ih =>
    intro ents i hwf hi hif ha hb
    obtain ⟨hw1, hw2, hw3⟩ := hwf
    rw [tpcs_succ]
    have hiNotChildI : i ∉ (ents.getD i default).children := by
      intro hmem
      exact absurd (hw2 i hi i hmem).1 (by omega)
    have hset_len : (ents.set i { ents.getD i default with
        cpumask := cpuSetS size bit (ents.getD i default).cpumask }).length =
        ents.length := by simp
    cases hpar : (ents.getD i default).parent with
    | none =>
      intro j hj hlvl
      rw [hset_len] at hj
      by_cases hji : j = i
      · subst hji
        rw [getD_set_self _ _ _ hi] at hlvl ⊢
        simp only at hlvl ⊢
        rw [mask_union_set_not_mem _ _ _ _ hiNotChildI]
        exact (hb hlvl).symm
      · rw [getD_set_ne _ _ _ _ (fun he => hji he.symm)] at hlvl ⊢
        have hiNotChildJ : i ∉ (ents.getD j default).children := by
          intro hmem
          have := (hw2 j hj i hmem).2.2
          rw [hpar] at this
          simp at this
        rw [mask_union_set_not_mem _ _ _ _ hiNotChildJ]
        exact ha j hj hji hlvl
    | some p =>
      simp only
      have hpi : p < i ∧ i ∈ (ents.getD p default).children := hw1 i hi p hpar
      have hpne : p ≠ i := by omega
      apply ih _ p
      · apply ent_wf_of_fields _ ents hset_len
        · intro j
          by_cases hji : j = i
          · subst hji
            rw [getD_set_self _ _ _ hi]
          · rw [getD_set_ne _ _ _ _ (fun he => hji he.symm)]
        · intro j
          by_cases hji : j = i
          · subst hji
            rw [getD_set_self _ _ _ hi]
          · rw [getD_set_ne _ _ _ _ (fun he => hji he.symm)]
        · exact ⟨hw1, hw2, hw3⟩
      · rw [hset_len]; omega
      · omega
      · intro j hj hjp hlvl
        rw [hset_len] at hj
        by_cases hji : j = i
        · subst hji
          rw [getD_set_self _ _ _ hi] at hlvl ⊢
          simp only at hlvl ⊢
          rw [mask_union_set_not_mem _ _ _ _ hiNotChildI]
          exact (hb hlvl).symm
        · rw [getD_set_ne _ _ _ _ (fun he => hji he.symm)] at hlvl ⊢
          have hiNotChildJ : i ∉ (ents.getD j default).children := by
            intro hmem
            have := (hw2 j hj i hmem).2.2
            rw [hpar] at this
            simp only [Option.some.injEq] at this
            exact hjp this.symm
          rw [mask_union_set_not_mem _ _ _ _ hiNotChildJ]
          exact ha j hj hji hlvl
      · intro hlvl
        rw [getD_set_ne _ _ _ _ (fun he => hpne he.symm)] at hlvl ⊢
        obtain ⟨R, hR1, hR2⟩ := mask_union_split ents i
          { ents.getD i default with cpumask := cpuSetS size bit (ents.getD i default).cpumask }
          (ents.getD p default).children (hw3 p (by omega)) hpi.2 hi
        rw [hR2]
        simp only
        rw [ha p (by omega) hpne hlvl, hR1, cpuSetS_lor_left]

/- allocation preserves the graph invariants -/

theorem alloc_getD_parent (st : BuildSt) (p cpu : Nat) (hp : p < st.ents.length) :
    (alloc_init_topo_procent st (some p) cpu).1.ents.getD p default =
      { st.ents.getD p default with
        children := st.ents.length :: (st.ents.getD p default).children } := by
  unfold alloc_init_topo_procent
  simp only
  rw [getD_append_lt _ _ _ (by simpa using hp), getD_set_self _ _ _ hp]

theorem alloc_getD_ne (st : BuildSt) (p cpu j : Nat) (hj : j < st.ents.length)
    (hne : j ≠ p) :
    (alloc_init_topo_procent st (some p) cpu).1.ents.getD j default =
      st.ents.getD j default := by
  unfold alloc_init_topo_procent
  simp only
  rw [getD_append_lt _ _ _ (by simpa using hj), getD_set_ne _ _ _ _ (fun he => hne he.symm)]

theorem mask_inv_of_fields (e1 e2 : List Ent)
    (hl : e1.length = e2.length)
    (hlv : ∀ j, (e1.getD j default).level = (e2.getD j default).level)
    (hmk : ∀ j, (e1.getD j default).cpumask = (e2.getD j default).cpumask)
    (hch : ∀ j, (e1.getD j default).children = (e2.getD j default).children)
    (h : mask_inv e2) : mask_inv e1 := by
  intro j hj hlvl
  rw [hlv j] at hlvl
  rw [hmk j, hch j, mask_union_congr e1 e2 _ (fun c _ => hmk c)]
  exact h j (by omega) hlvl

theorem alloc_inv (st : BuildSt) (p cpu : Nat) (hp : p < st.ents.length)
    (hw : ent_wf st.ents) (hm : mask_inv st.ents) :
    ent_wf (alloc_init_topo_procent st (some p) cpu).1.ents ∧
    mask_inv (alloc_init_topo_procent st (some p) cpu).1.ents := by
  obtain ⟨hw1, hw2, hw3⟩ := hw
  have hlen := alloc_length st (some p) cpu
  have hnew := alloc_getD_new st p cpu
  have hP := alloc_getD_parent st p cpu hp
  have hO := alloc_getD_ne st p cpu
  have hmaskAll : ∀ j, j < st.ents.length →
      ((alloc_init_topo_procent st (some p) cpu).1.ents.getD j default).cpumask =
        (st.ents.getD j default).cpumask := by
    intro j hj
    by_cases hjp : j = p
    · subst hjp; rw [hP]
    · rw [hO j hj hjp]
  have hparAll : ∀ j, j < st.ents.length →
      ((alloc_init_topo_procent st (some p) cpu).1.ents.getD j default).parent =
        (st.ents.getD j default).parent := by
    intro j hj
    by_cases hjp : j = p
    · subst hjp; rw [hP]
    · rw [hO j hj hjp]
  have hlvlAll : ∀ j, j < st.ents.length →
      ((alloc_init_topo_procent st (some p) cpu).1.ents.getD j default).level =
        (st.ents.getD j default).level := by
    intro j hj
    by_cases hjp : j = p
    · subst hjp; rw [hP]
    · rw [hO j hj hjp]
  constructor
  · refine ⟨?_, ?_, ?_⟩
    · intro j hj q hq
      rw [hlen] at hj
      by_cases hjn : j = st.ents.length
      · subst hjn
        rw [hnew] at hq
        simp only [Option.some.injEq] at hq
        subst hq
        refine ⟨hp, ?_⟩
        rw [hP]
        exact List.mem_cons_self _ _
      · have hjlt : j < st.ents.length := by omega
        rw [hparAll j hjlt] at hq
        obtain ⟨hq1, hq2⟩ := hw1 j hjlt q hq
        refine ⟨hq1, ?_⟩
        by_cases hqp : q = p
        · subst hqp
          rw [hP]
          exact List.mem_cons_of_mem _ hq2
        · rw [hO q (by omega) hqp]
          exact hq2
    · intro j hj c hc
      rw [hlen] at hj
      by_cases hjn : j = st.ents.length
      · subst hjn
        rw [hnew] at hc
        simp at hc
      · have hjlt : j < st.ents.length := by omega
        by_cases hjp : j = p
        · subst hjp
          rw [hP] at hc
          rcases List.mem_cons.mp hc with rfl | hcm
          · refine ⟨hp, by omega, ?_⟩
            rw [hnew]
          · obtain ⟨hc1, hc2, hc3⟩ := hw2 j hjlt c hcm
            refine ⟨hc1, by omega, ?_⟩
            rw [hparAll c hc2]
            exact hc3
        · rw [hO j hjlt hjp] at hc
          obtain ⟨hc1, hc2, hc3⟩ := hw2 j hjlt c hc
          refine ⟨hc1, by omega, ?_⟩
          rw [hparAll c hc2]
          exact hc3
    · intro j hj
      rw [hlen] at hj
      by_cases hjn : j = st.ents.length
      · subst hjn
        rw [hnew]
        simp
      · have hjlt : j < st.ents.length := by omega
        by_cases hjp : j = p
        · subst hjp
          rw [hP]
          simp only
          refine List.nodup_cons.mpr ⟨?_, hw3 j hjlt⟩
          intro hmem
          exact absurd (hw2 j hjlt _ hmem).2.1 (by omega)
        · rw [hO j hjlt hjp]
          exact hw3 j hjlt
  · intro j hj hlvl
    rw [hlen] at hj
    by_cases hjn : j = st.ents.length
    · subst hjn
      rw [hnew]
      rfl
    · have hjlt : j < st.ents.length := by omega
      have hmu : ∀ cs, (∀ c ∈ cs, c < st.ents.length) →
          mask_union (alloc_init_topo_procent st (some p) cpu).1.ents cs =
            mask_union st.ents cs := by
        intro cs hcs
        exact mask_union_congr _ _ cs (fun c hc => hmaskAll c (hcs c hc))
      by_cases hjp : j = p
      · subst hjp
        rw [hP] at hlvl ⊢
        simp only at hlvl ⊢
        rw [mask_union_cons, hnew]
        simp only
        rw [hmu _ (fun c hc => (hw2 j hjlt c hc).2.1), Nat.zero_or]
        exact hm j hjlt hlvl
      · rw [hO j hjlt hjp] at hlvl ⊢
        rw [hmu _ (fun c hc => (hw2 j hjlt c hc).2.1)]
        exact hm j hjlt hlvl

theorem sek_inv (st : BuildSt) (i : Nat) (k : String)
    (hw : ent_wf st.ents) (hm : mask_inv st.ents) :
    ent_wf (set_ent_key st i k).ents ∧ mask_inv (set_ent_key st i k).ents := by
  have hgen : ∀ j, ((set_ent_key st i k).ents.getD j default).parent =
      ((st.ents.getD j default).parent) ∧
      ((set_ent_key st i k).ents.getD j default).children =
      ((st.ents.getD j default).children) ∧
      ((set_ent_key st i k).ents.getD j default).level =
      ((st.ents.getD j default).level) ∧
      ((set_ent_key st i k).ents.getD j default).cpumask =
      ((st.ents.getD j default).cpumask) := by
    intro j
    by_cases hij : i = j
    · subst hij
      by_cases hlt : i < st.ents.length
      · rw [sek_getD_self st i k hlt]
        exact ⟨rfl, rfl, rfl, rfl⟩
      · unfold set_ent_key
        simp only
        rw [List.set_eq_of_length_le (by omega)]
        exact ⟨rfl, rfl, rfl, rfl⟩
    · rw [sek_getD_ne st i j k hij]
      exact ⟨rfl, rfl, rfl, rfl⟩
  constructor
  · exact ent_wf_of_fields _ _ (sek_length st i k) (fun j => (hgen j).1)
      (fun j => (hgen j).2.1) hw
  · exact mask_inv_of_fields _ _ (sek_length st i k) (fun j => (hgen j).2.2.1)
      (fun j => (hgen j).2.2.2) (fun j => (hgen j).2.1) hm

theorem tpcs_ent_wf (size : Nat) (fuel : Nat) (ents : List Ent) (i bit : Nat)
    (hw : ent_wf ents) : ent_wf (topo_procent_cpumask_set size fuel ents i bit) := by
  apply ent_wf_of_fields _ ents (tpcs_length size fuel ents i bit)
  · intro j
    obtain ⟨m, hm⟩ := tpcs_getD size fuel ents i bit j
    rw [hm]
  · intro j
    obtain ⟨m, hm⟩ := tpcs_getD size fuel ents i bit j
    rw [hm]
  · exact hw

theorem tac_inv (fs : Sysfs) (stC : BuildSt) (core cpu : Nat)
    (hcore : core < stC.ents.length)
    (hlvl : (stC.ents.getD core default).level = TOPOLOGY_CORE)
    (hw : ent_wf stC.ents) (hm : mask_inv stC.ents) :
    ent_wf (thread_and_caches fs stC core cpu).ents ∧
    mask_inv (thread_and_caches fs stC core cpu).ents := by
  unfold thread_and_caches
  simp only
  rw [(gci_frame fs _ cpu).1]
  simp only [alloc_snd]
  obtain ⟨hwA, hmA⟩ := alloc_inv stC core cpu hcore hw hm
  have hlenA := alloc_length stC (some core) cpu
  constructor
  · exact tpcs_ent_wf _ _ _ _ _ hwA
  · apply tpcs_preserves
    · exact hwA
    · omega
    · omega
    · intro j hj _ h2
      exact hmA j hj h2
    · intro hx
      rw [alloc_getD_new] at hx
      simp only at hx
      rw [hlvl] at hx
      exact absurd rfl hx

/- device registration preserves the device invariant -/

theorem cbh_some (d : Device) (k : String) (h : cache_build_hash d = some k) :
    ∃ l t m, attr_find d ("level") = some l ∧ attr_find d ("type") = some t ∧
      attr_find d ("shared_cpu_map") = some m ∧ k = cache_hash_key l t m := by
  unfold cache_build_hash at h
  cases h1 : attr_find d ("level") with
  | none => rw [h1] at h; simp at h
  | some l =>
    cases h2 : attr_find d ("type") with
    | none => rw [h1, h2] at h; simp at h
    | some t =>
      cases h3 : attr_find d ("shared_cpu_map") with
      | none => rw [h1, h2, h3] at h; simp at h
      | some m =>
        rw [h1, h2, h3] at h
        simp only [Option.some.injEq] at h
        exact ⟨l, t, m, rfl, rfl, rfl, h.symm⟩

theorem rehash_spec : ∀ (devs : List Device) (t : STbl),
    t.count + devs.length ≤ t.maxsize →
    rehash_devices t devs =
      (⟨(devs.map (fun d => d.hash_key.getD "")).reverse ++ t.keys,
        t.count + devs.length, t.maxsize⟩, true) := by
  intro devs
  induction devs with
  | nil =>
    intro t h
    simp [rehash_devices]
  | cons d rest ih =>
    intro t h
    unfold rehash_devices
    have hins : s_insert t (d.hash_key.getD "") =
        (⟨(d.hash_key.getD "") :: t.keys, t.count + 1, t.maxsize⟩, true) := by
      unfold s_insert
      rw [if_pos (by simp at h; omega)]
    rw [hins]
    simp only
    rw [ih ⟨(d.hash_key.getD "") :: t.keys, t.count + 1, t.maxsize⟩ (by simp at h ⊢; omega)]
    simp only [List.map_cons, List.reverse_cons, List.append_assoc,
      List.singleton_append, List.length_cons]
    rw [show t.count + 1 + rest.length = t.count + (rest.length + 1) by omega]

theorem dev_inv_insert (st : BuildSt) (cache : Device) (key : String) (T : STbl)
    (hinv : dev_inv st)
    (hsig : ∃ l t m, attr_find cache ("level") = some l ∧
        attr_find cache ("type") = some t ∧
        attr_find cache ("shared_cpu_map") = some m ∧ key = cache_hash_key l t m)
    (hmem : s_member st.devTbl key = false)
    (hkeys : ∀ d ∈ st.devices, T.keys.contains (d.hash_key.getD "") = true)
    (hkey0 : T.keys.contains key = true)
    (hcnt : T.count = st.devices.length + 1)
    (hmax : 1 ≤ T.maxsize) (hle : T.count ≤ T.maxsize) :
    dev_inv { st with devTbl := T,
                      devices := ({ cache with hash_key := some key } :: st.devices) } := by
  obtain ⟨d1, d2, d3, d4, d5, d6⟩ := hinv
  refine ⟨?_, ?_, ?_, ?_, ?_, ?_⟩
  · intro d hd
    rcases List.mem_cons.mp hd with rfl | hdm
    · obtain ⟨l, t, m, h1, h2, h3, h4⟩ := hsig
      exact ⟨l, t, m, h1, h2, h3, by rw [h4]⟩
    · exact d1 d hdm
  · intro d hd
    rcases List.mem_cons.mp hd with rfl | hdm
    · exact hkey0
    · exact hkeys d hdm
  · simp only [List.map_cons]
    refine List.nodup_cons.mpr ⟨?_, d3⟩
    intro hx
    obtain ⟨d, hdm, hdk⟩ := List.mem_map.mp hx
    have := d2 d hdm
    rw [hdk] at this
    simp only [Option.getD_some] at this
    rw [hmem] at this
    exact absurd this (by simp)
  · simpa using hcnt
  · exact hmax
  · exact hle

theorem gcl_dev_inv (fs : Sysfs) :
    ∀ r st cpu idx, dev_inv st → dev_inv (get_cache_loop fs st cpu idx r) := by
  intro r
  induction r with
  | zero => intro st cpu idx h; exact h
  | succ r ih =>
    intro st cpu idx hinv
    rw [gcl_step]
    cases h1 : __get_cache_info fs st.size cpu idx alloc_topo_device with
    | none => exact hinv
    | some cache =>
      simp only
      cases h2 : cache_build_hash cache with
      | none => exact hinv
      | some key =>
        simp only
        by_cases hm : s_member st.devTbl key
        · simp only [hm, if_true]
          exact ih st cpu (idx+1) hinv
        · simp only [hm, Bool.false_eq_true, if_false]
          obtain ⟨d1, d2, d3, d4, d5, d6⟩ := hinv
          have hsig := cbh_some cache key h2
          by_cases hfull : (st.devTbl.count == st.devTbl.maxsize) = true
          · have hcm : st.devTbl.count = st.devTbl.maxsize := by simpa using hfull
            have hrh := rehash_spec st.devices ⟨[], 0, 2 * st.devTbl.maxsize⟩
              (by dsimp only; omega)
            have hhd : hash_device st.devices st.devTbl key =
                (⟨key :: ((st.devices.map (fun d => d.hash_key.getD "")).reverse ++ []),
                  st.devices.length + 1, 2 * st.devTbl.maxsize⟩, true) := by
              unfold hash_device
              rw [if_neg (by simp [hfull]), hrh]
              simp only
              unfold s_insert
              rw [if_pos (by dsimp only; omega)]
              simp
            rw [hhd]
            simp only
            apply ih
            apply dev_inv_insert st cache key _ ⟨d1, d2, d3, d4, d5, d6⟩ hsig
              (by simpa using hm)
            · intro d hd
              simp only [List.append_nil, List.contains_cons, Bool.or_eq_true]
              right
              rw [List.contains_iff_exists_mem_beq]
              exact ⟨d.hash_key.getD "", List.mem_reverse.mpr
                (List.mem_map.mpr ⟨d, hd, rfl⟩), by simp⟩
            · simp
            · rfl
            · simp only; omega
            · simp only; omega
          · have hlt : st.devTbl.count < st.devTbl.maxsize := by
              have : st.devTbl.count ≠ st.devTbl.maxsize := by simpa using hfull
              omega
            have hhd : hash_device st.devices st.devTbl key =
                (⟨key :: st.devTbl.keys, st.devTbl.count + 1, st.devTbl.maxsize⟩, true) := by
              unfold hash_device
              rw [if_pos (by simpa using hfull)]
              unfold s_insert
              rw [if_pos hlt]
            rw [hhd]
            simp only
            apply ih
            apply dev_inv_insert st cache key _ ⟨d1, d2, d3, d4, d5, d6⟩ hsig
              (by simpa using hm)
            · intro d hd
              simp only [List.contains_cons, Bool.or_eq_true]
              right
              exact d2 d hd
            · simp
            · simp only; omega
            · simp only; omega
            · simp only; omega

theorem gci_dev_inv (fs : Sysfs) (st : BuildSt) (cpu : Nat) (h : dev_inv st) :
    dev_inv (get_cache_info fs st cpu) := by
  unfold get_cache_info
  by_cases hz : (fs.nrCaches cpu == 0) = true
  · simp [hz, h]
  · simp only [hz, Bool.false_eq_true, if_false]
    exact gcl_dev_inv fs (fs.nrCaches cpu) st cpu 0 h

theorem dev_inv_congr (s1 s2 : BuildSt) (hd : s1.devices = s2.devices)
    (ht : s1.devTbl = s2.devTbl) (h : dev_inv s2) : dev_inv s1 := by
  unfold dev_inv at h ⊢
  rw [hd, ht]
  exact h

theorem tbl_inv_congr (s1 s2 : BuildSt) (hp : s1.pkgTbl = s2.pkgTbl)
    (hc : s1.coreTbl = s2.coreTbl) (hl : s2.ents.length ≤ s1.ents.length)
    (hg : ∀ j, j < s2.ents.length →
      (s1.ents.getD j default).level = (s2.ents.getD j default).level)
    (h : tbl_inv s2) : tbl_inv s1 := by
  obtain ⟨h1, h2⟩ := h
  constructor
  · intro e he
    rw [hp] at he
    obtain ⟨ha, hb⟩ := h1 e he
    exact ⟨by omega, by rw [hg e.2 ha]; exact hb⟩
  · intro e he
    rw [hc] at he
    obtain ⟨ha, hb⟩ := h2 e he
    exact ⟨by omega, by rw [hg e.2 ha]; exact hb⟩

/- lookup-or-create preserves the invariant -/

theorem kv_insert_inv (t : KVTbl) (k : String) (v : Nat) (t1 : KVTbl)
    (h : kv_insert t k v = some t1) :
    t1 = ⟨(k, v) :: t.entries, t.count + 1, t.maxsize⟩ := by
  unfold kv_insert at h
  by_cases hc : t.count < t.maxsize
  · rw [if_pos hc] at h
    simpa using h.symm
  · rw [if_neg hc] at h
    exact absurd h (by simp)

theorem allocsek_getD_old (st : BuildSt) (p cpu : Nat) (k : String) (j : Nat)
    (hj : j < st.ents.length) :
    ∃ ch, (set_ent_key (alloc_init_topo_procent st (some p) cpu).1
        st.ents.length k).ents.getD j default =
      { st.ents.getD j default with children := ch } := by
  rw [sek_getD_ne _ _ _ _ (by omega)]
  exact alloc_getD_old st p cpu j hj

theorem allocsek_getD_new (st : BuildSt) (p cpu : Nat) (k : String) :
    (set_ent_key (alloc_init_topo_procent st (some p) cpu).1
        st.ents.length k).ents.getD st.ents.length default =
      ⟨(st.ents.getD p default).level - 1, cpu, some k, some p, [], 0⟩ := by
  rw [sek_getD_self _ _ _ (by rw [alloc_length]; omega), alloc_getD_new]

theorem kv_lookup_mem (t : KVTbl) (k : String) (v : Nat)
    (h : kv_lookup t k = some v) : (k, v) ∈ t.entries := by
  unfold kv_lookup at h
  cases hf : t.entries.find? (fun e => e.1 == k) with
  | none => rw [hf] at h; simp at h
  | some e =>
    rw [hf] at h
    have hbeq := List.find?_some hf
    have hmem := List.mem_of_find?_eq_some hf
    simp only [beq_iff_eq] at hbeq
    have he2 : e.2 = v := by simpa using h
    have he : e = (k, v) := by
      cases e
      simp only at hbeq he2
      simp [hbeq, he2]
    rw [← he]
    exact hmem

theorem plc_inv (st : BuildSt) (key : String) (nodeIdx cpu : Nat) (stP : BuildSt) (pkg : Nat)
    (h : pkg_lookup_or_create st key nodeIdx cpu = some (stP, pkg))
    (hnode : nodeIdx < st.ents.length)
    (hnlvl : (st.ents.getD nodeIdx default).level = TOPOLOGY_NODE)
    (hinv : build_inv st) :
    build_inv stP ∧ pkg < stP.ents.length ∧
    (stP.ents.getD pkg default).level = TOPOLOGY_PACKAGE ∧
    st.ents.length ≤ stP.ents.length ∧
    stP.devices = st.devices ∧ stP.devTbl = st.devTbl ∧ stP.size = st.size ∧
    (∀ j, j < st.ents.length →
      (stP.ents.getD j default).level = (st.ents.getD j default).level ∧
      (stP.ents.getD j default).parent = (st.ents.getD j default).parent) := by
  obtain ⟨hw, hm, ⟨ht1, ht2⟩, hd⟩ := hinv
  unfold pkg_lookup_or_create at h
  cases hl : kv_lookup st.pkgTbl key with
  | some p =>
    rw [hl] at h
    simp only [Option.some.injEq, Prod.mk.injEq] at h
    obtain ⟨rfl, rfl⟩ := h
    have hpl := ht1 (key, p) (kv_lookup_mem st.pkgTbl key p hl)
    exact ⟨⟨hw, hm, ⟨ht1, ht2⟩, hd⟩, hpl.1, hpl.2, Nat.le_refl _, rfl, rfl, rfl,
      fun j hj => ⟨rfl, rfl⟩⟩
  | none =>
    rw [hl] at h
    simp only [alloc_snd] at h
    cases hins : kv_insert (set_ent_key (alloc_init_topo_procent st (some nodeIdx) cpu).1
        st.ents.length key).pkgTbl key st.ents.length with
    | none => rw [hins] at h; exact absurd h (by simp)
    | some t =>
      rw [hins] at h
      simp only [Option.some.injEq, Prod.mk.injEq] at h
      obtain ⟨rfl, rfl⟩ := h
      have htbl := kv_insert_inv _ _ _ _ hins
      have hsekp : (set_ent_key (alloc_init_topo_procent st (some nodeIdx) cpu).1
          st.ents.length key).pkgTbl = st.pkgTbl := by
        rw [(sek_frame _ _ _).2.1, (alloc_frame _ _ _).2.1]
      rw [hsekp] at htbl
      have hlen : (set_ent_key (alloc_init_topo_procent st (some nodeIdx) cpu).1
          st.ents.length key).ents.length = st.ents.length + 1 := by
        rw [sek_length, alloc_length]
      obtain ⟨hwA, hmA⟩ := alloc_inv st nodeIdx cpu hnode hw hm
      obtain ⟨hwS, hmS⟩ := sek_inv (alloc_init_topo_procent st (some nodeIdx) cpu).1
        st.ents.length key hwA hmA
      have hnewlvl : ((set_ent_key (alloc_init_topo_procent st (some nodeIdx) cpu).1
          st.ents.length key).ents.getD st.ents.length default).level =
          TOPOLOGY_PACKAGE := by
        rw [allocsek_getD_new]
        dsimp only
        rw [hnlvl]
        decide
      have hold : ∀ j, j < st.ents.length →
          ((set_ent_key (alloc_init_topo_procent st (some nodeIdx) cpu).1
            st.ents.length key).ents.getD j default).level =
            (st.ents.getD j default).level ∧
          ((set_ent_key (alloc_init_topo_procent st (some nodeIdx) cpu).1
            st.ents.length key).ents.getD j default).parent =
            (st.ents.getD j default).parent := by
        intro j hj
        obtain ⟨ch, hch⟩ := allocsek_getD_old st nodeIdx cpu key j hj
        rw [hch]
        exact ⟨rfl, rfl⟩
      refine ⟨⟨hwS, hmS, ⟨?_, ?_⟩, ?_⟩, by dsimp only; omega, by dsimp only; exact hnewlvl,
        by dsimp only; omega, ?_, ?_, ?_, ?_⟩
      · intro e he
        dsimp only at he
        rw [htbl] at he
        rcases List.mem_cons.mp he with rfl | hem
        · exact ⟨by dsimp only; omega, hnewlvl⟩
        · obtain ⟨ha, hb⟩ := ht1 e hem
          exact ⟨by dsimp only; omega, by dsimp only; rw [(hold e.2 ha).1]; exact hb⟩
      · intro e he
        dsimp only at he
        rw [(sek_frame _ _ _).2.2.1, (alloc_frame _ _ _).2.2.1] at he
        obtain ⟨ha, hb⟩ := ht2 e he
        exact ⟨by dsimp only; omega, by dsimp only; rw [(hold e.2 ha).1]; exact hb⟩
      · apply dev_inv_congr _ st
        · dsimp only
          rw [(sek_frame _ _ _).2.2.2.1, (alloc_frame _ _ _).2.2.2.1]
        · dsimp only
          rw [(sek_frame _ _ _).2.2.2.2, (alloc_frame _ _ _).2.2.2.2]
        · exact hd
      · dsimp only
        rw [(sek_frame _ _ _).2.2.2.1, (alloc_frame _ _ _).2.2.2.1]
      · dsimp only
        rw [(sek_frame _ _ _).2.2.2.2, (alloc_frame _ _ _).2.2.2.2]
      · dsimp only
        rw [(sek_frame _ _ _).1, (alloc_frame _ _ _).1]
      · exact hold

theorem clc_inv (st : BuildSt) (key : String) (pkg cpu : Nat) (stC : BuildSt) (core : Nat)
    (h : core_lookup_or_create st key pkg cpu = some (stC, core))
    (hpkg : pkg < st.ents.length)
    (hplvl : (st.ents.getD pkg default).level = TOPOLOGY_PACKAGE)
    (hinv : build_inv st) :
    build_inv stC ∧ core < stC.ents.length ∧
    (stC.ents.getD core default).level = TOPOLOGY_CORE ∧
    st.ents.length ≤ stC.ents.length ∧
    stC.devices = st.devices ∧ stC.devTbl = st.devTbl ∧ stC.size = st.size ∧
    (∀ j, j < st.ents.length →
      (stC.ents.getD j default).level = (st.ents.getD j default).level ∧
      (stC.ents.getD j default).parent = (st.ents.getD j default).parent) := by
  obtain ⟨hw, hm, ⟨ht1, ht2⟩, hd⟩ := hinv
  unfold core_lookup_or_create at h
  cases hl : kv_lookup st.coreTbl key with
  | some c =>
    rw [hl] at h
    simp only [Option.some.injEq, Prod.mk.injEq] at h
    obtain ⟨rfl, rfl⟩ := h
    have hcl := ht2 (key, c) (kv_lookup_mem st.coreTbl key c hl)
    exact ⟨⟨hw, hm, ⟨ht1, ht2⟩, hd⟩, hcl.1, hcl.2, Nat.le_refl _, rfl, rfl, rfl,
      fun j hj => ⟨rfl, rfl⟩⟩
  | none =>
    rw [hl] at h
    simp only [alloc_snd] at h
    cases hins : kv_insert (set_ent_key (alloc_init_topo_procent st (some pkg) cpu).1
        st.ents.length key).coreTbl key st.ents.length with
    | none => rw [hins] at h; exact absurd h (by simp)
    | some t =>
      rw [hins] at h
      simp only [Option.some.injEq, Prod.mk.injEq] at h
      obtain ⟨rfl, rfl⟩ := h
      have htbl := kv_insert_inv _ _ _ _ hins
      have hsekc : (set_ent_key (alloc_init_topo_procent st (some pkg) cpu).1
          st.ents.length key).coreTbl = st.coreTbl := by
        rw [(sek_frame _ _ _).2.2.1, (alloc_frame _ _ _).2.2.1]
      rw [hsekc] at htbl
      have hlen : (set_ent_key (alloc_init_topo_procent st (some pkg) cpu).1
          st.ents.length key).ents.length = st.ents.length + 1 := by
        rw [sek_length, alloc_length]
      obtain ⟨hwA, hmA⟩ := alloc_inv st pkg cpu hpkg hw hm
      obtain ⟨hwS, hmS⟩ := sek_inv (alloc_init_topo_procent st (some pkg) cpu).1
        st.ents.length key hwA hmA
      have hnewlvl : ((set_ent_key (alloc_init_topo_procent st (some pkg) cpu).1
          st.ents.length key).ents.getD st.ents.length default).level =
          TOPOLOGY_CORE := by
        rw [allocsek_getD_new]
        dsimp only
        rw [hplvl]
        decide
      have hold : ∀ j, j < st.ents.length →
          ((set_ent_key (alloc_init_topo_procent st (some pkg) cpu).1
            st.ents.length key).ents.getD j default).level =
            (st.ents.getD j default).level ∧
          ((set_ent_key (alloc_init_topo_procent st (some pkg) cpu).1
            st.ents.length key).ents.getD j default).parent =
            (st.ents.getD j default).parent := by
        intro j hj
        obtain ⟨ch, hch⟩ := allocsek_getD_old st pkg cpu key j hj
        rw [hch]
        exact ⟨rfl, rfl⟩
      refine ⟨⟨hwS, hmS, ⟨?_, ?_⟩, ?_⟩, by dsimp only; omega, by dsimp only; exact hnewlvl,
        by dsimp only; omega, ?_, ?_, ?_, ?_⟩
      · intro e he
        dsimp only at he
        rw [(sek_frame _ _ _).2.1, (alloc_frame _ _ _).2.1] at he
        obtain ⟨ha, hb⟩ := ht1 e he
        exact ⟨by dsimp only; omega, by dsimp only; rw [(hold e.2 ha).1]; exact hb⟩
      · intro e he
        dsimp only at he
        rw [htbl] at he
        rcases List.mem_cons.mp he with rfl | hem
        · exact ⟨by dsimp only; omega, hnewlvl⟩
        · obtain ⟨ha, hb⟩ := ht2 e hem
          exact ⟨by dsimp only; omega, by dsimp only; rw [(hold e.2 ha).1]; exact hb⟩
      · apply dev_inv_congr _ st
        · dsimp only
          rw [(sek_frame _ _ _).2.2.2.1, (alloc_frame _ _ _).2.2.2.1]
        · dsimp only
          rw [(sek_frame _ _ _).2.2.2.2, (alloc_frame _ _ _).2.2.2.2]
        · exact hd
      · dsimp only
        rw [(sek_frame _ _ _).2.2.2.1, (alloc_frame _ _ _).2.2.2.1]
      · dsimp only
        rw [(sek_frame _ _ _).2.2.2.2, (alloc_frame _ _ _).2.2.2.2]
      · dsimp only
        rw [(sek_frame _ _ _).1, (alloc_frame _ _ _).1]
      · exact hold

theorem tac_build_inv (fs : Sysfs) (stC : BuildSt) (core cpu : Nat)
    (hcore : core < stC.ents.length)
    (hlvl : (stC.ents.getD core default).level = TOPOLOGY_CORE)
    (hinv : build_inv stC) :
    build_inv (thread_and_caches fs stC core cpu) ∧
    stC.ents.length ≤ (thread_and_caches fs stC core cpu).ents.length ∧
    (∀ j, j < stC.ents.length →
      ((thread_and_caches fs stC core cpu).ents.getD j default).level =
        (stC.ents.getD j default).level ∧
      ((thread_and_caches fs stC core cpu).ents.getD j default).parent =
        (stC.ents.getD j default).parent) := by
  obtain ⟨hw, hm, ht, hd⟩ := hinv
  have hlen := tac_length fs stC core cpu
  have hold : ∀ j, j < stC.ents.length →
      ((thread_and_caches fs stC core cpu).ents.getD j default).level =
        (stC.ents.getD j default).level ∧
      ((thread_and_caches fs stC core cpu).ents.getD j default).parent =
        (stC.ents.getD j default).parent := by
    intro j hj
    obtain ⟨ch, msk, hch⟩ := tac_getD_old fs stC core cpu j hj
    rw [hch]
    exact ⟨rfl, rfl⟩
  obtain ⟨hwT, hmT⟩ := tac_inv fs stC core cpu hcore hlvl hw hm
  refine ⟨⟨hwT, hmT, ?_, ?_⟩, by omega, hold⟩
  · apply tbl_inv_congr _ stC (tac_tables fs stC core cpu).1
      (tac_tables fs stC core cpu).2.1 (by omega) (fun j hj => (hold j hj).1) ht
  · unfold thread_and_caches
    simp only
    apply gci_dev_inv
    apply dev_inv_congr _ stC
    · dsimp only
      exact (alloc_frame stC (some core) cpu).2.2.2.1
    · dsimp only
      exact (alloc_frame stC (some core) cpu).2.2.2.2
    · exact hd

theorem doc_inv (fs : Sysfs) (st : BuildSt) (nodeIdx cpu : Nat) (st1 : BuildSt)
    (h : do_one_cpu fs st nodeIdx cpu = some st1)
    (hnode : nodeIdx < st.ents.length)
    (hnlvl : (st.ents.getD nodeIdx default).level = TOPOLOGY_NODE)
    (hinv : build_inv st) :
    build_inv st1 ∧ st.ents.length ≤ st1.ents.length ∧
    (∀ j, j < st.ents.length →
      (st1.ents.getD j default).level = (st.ents.getD j default).level ∧
      (st1.ents.getD j default).parent = (st.ents.getD j default).parent) := by
  unfold do_one_cpu at h
  cases hp : pkg_lookup_or_create st (sysfs_cpu_core_siblings fs cpu) nodeIdx cpu with
  | none => rw [hp] at h; exact absurd h (by simp)
  | some pr =>
    obtain ⟨stP, pkg⟩ := pr
    rw [hp] at h
    simp only at h
    cases hc : core_lookup_or_create stP (sysfs_cpu_thread_siblings fs cpu) pkg cpu with
    | none => rw [hc] at h; exact absurd h (by simp)
    | some cr =>
      obtain ⟨stC, core⟩ := cr
      rw [hc] at h
      simp only [Option.some.injEq] at h
      subst h
      obtain ⟨hinvP, hpkg, hplvl, hlenP, _, _, _, holdP⟩ :=
        plc_inv st (sysfs_cpu_core_siblings fs cpu) nodeIdx cpu stP pkg hp hnode hnlvl hinv
      obtain ⟨hinvC, hcore, hclvl, hlenC, _, _, _, holdC⟩ :=
        clc_inv stP (sysfs_cpu_thread_siblings fs cpu) pkg cpu stC core hc hpkg hplvl hinvP
      obtain ⟨hinvT, hlenT, holdT⟩ := tac_build_inv fs stC core cpu hcore hclvl hinvC
      refine ⟨hinvT, by omega, ?_⟩
      intro j hj
      have h1 := holdP j hj
      have h2 := holdC j (by omega)
      have h3 := holdT j (by omega)
      exact ⟨by rw [h3.1, h2.1, h1.1], by rw [h3.2, h2.2, h1.2]⟩

theorem dncl_inv (fs : Sysfs) (nodeIdx : Nat) :
    ∀ cpus st st1, do_node_cpus_loop fs nodeIdx st cpus = some st1 →
      nodeIdx < st.ents.length →
      (st.ents.getD nodeIdx default).level = TOPOLOGY_NODE →
      build_inv st →
      build_inv st1 ∧ st.ents.length ≤ st1.ents.length ∧
      (∀ j, j < st.ents.length →
        (st1.ents.getD j default).level = (st.ents.getD j default).level ∧
        (st1.ents.getD j default).parent = (st.ents.getD j default).parent) := by
  intro cpus
  induction cpus with
  | nil =>
    intro st st1 h hn hl hinv
    unfold do_node_cpus_loop at h
    simp only [Option.some.injEq] at h
    subst h
    exact ⟨hinv, Nat.le_refl _, fun j hj => ⟨rfl, rfl⟩⟩
  | cons c rest ih =>
    intro st st1 h hn hl hinv
    unfold do_node_cpus_loop at h
    by_cases hon : sysfs_cpu_is_online fs c
    · rw [if_neg (by rw [hon]; simp)] at h
      cases hdoc : do_one_cpu fs st nodeIdx c with
      | none => rw [hdoc] at h; exact absurd h (by simp)
      | some stx =>
        rw [hdoc] at h
        simp only at h
        obtain ⟨hinvX, hlenX, holdX⟩ := doc_inv fs st nodeIdx c stx hdoc hn hl hinv
        obtain ⟨hinv1, hlen1, hold1⟩ := ih stx st1 h (by omega)
          (by rw [(holdX nodeIdx hn).1]; exact hl) hinvX
        refine ⟨hinv1, by omega, ?_⟩
        intro j hj
        have h1 := holdX j hj
        have h2 := hold1 j (by omega)
        exact ⟨by rw [h2.1, h1.1], by rw [h2.2, h1.2]⟩
    · rw [if_pos (by rw [Bool.not_eq_true] at hon; rw [hon]; rfl)] at h
      exact ih st st1 h hn hl hinv

theorem dnc_inv (fs : Sysfs) (st : BuildSt) (nodeIdx nodeId : Nat) (st1 : BuildSt)
    (h : do_node_cpus fs st nodeIdx nodeId = some st1)
    (hn : nodeIdx < st.ents.length)
    (hl : (st.ents.getD nodeIdx default).level = TOPOLOGY_NODE)
    (hinv : build_inv st) :
    build_inv st1 ∧ st.ents.length ≤ st1.ents.length ∧
    (∀ j, j < st.ents.length →
      (st1.ents.getD j default).level = (st.ents.getD j default).level ∧
      (st1.ents.getD j default).parent = (st.ents.getD j default).parent) := by
  unfold do_node_cpus at h
  cases hnc : fs.nodeCpus nodeId with
  | some cpus =>
    rw [hnc] at h
    exact dncl_inv fs nodeIdx cpus st st1 h hn hl hinv
  | none =>
    rw [hnc] at h
    by_cases hz : (nodeId == 0) = true
    · rw [if_neg (by rw [hz]; simp)] at h
      cases hcd : fs.cpuDirList with
      | none => rw [hcd] at h; exact absurd h (by simp)
      | some cpus =>
        rw [hcd] at h
        exact dncl_inv fs nodeIdx cpus st st1 h hn hl hinv
    · rw [if_pos (by simp only [Bool.not_eq_true] at hz; rw [hz]; rfl)] at h
      exact absurd h (by simp)

theorem don_inv (fs : Sysfs) (st : BuildSt) (sysIdx nid : Nat) (st1 : BuildSt)
    (h : do_one_node fs st sysIdx nid = some st1)
    (hs : sysIdx < st.ents.length)
    (hl : (st.ents.getD sysIdx default).level = TOPOLOGY_SYSTEM)
    (hinv : build_inv st) :
    build_inv st1 ∧ st.ents.length ≤ st1.ents.length ∧
    (∀ j, j < st.ents.length →
      (st1.ents.getD j default).level = (st.ents.getD j default).level ∧
      (st1.ents.getD j default).parent = (st.ents.getD j default).parent) := by
  obtain ⟨hw, hm, ht, hd⟩ := hinv
  unfold do_one_node at h
  simp only [alloc_snd] at h
  obtain ⟨hwA, hmA⟩ := alloc_inv st sysIdx nid hs hw hm
  have hlenA := alloc_length st (some sysIdx) nid
  have holdA : ∀ j, j < st.ents.length →
      ((alloc_init_topo_procent st (some sysIdx) nid).1.ents.getD j default).level =
        (st.ents.getD j default).level ∧
      ((alloc_init_topo_procent st (some sysIdx) nid).1.ents.getD j default).parent =
        (st.ents.getD j default).parent := by
    intro j hj
    obtain ⟨ch, hch⟩ := alloc_getD_old st sysIdx nid j hj
    rw [hch]
    exact ⟨rfl, rfl⟩
  have hinvA : build_inv (alloc_init_topo_procent st (some sysIdx) nid).1 := by
    refine ⟨hwA, hmA, ?_, ?_⟩
    · apply tbl_inv_congr _ st (alloc_frame _ _ _).2.1 (alloc_frame _ _ _).2.2.1
        (by omega) (fun j hj => (holdA j hj).1) ht
    · exact dev_inv_congr _ st (alloc_frame _ _ _).2.2.2.1 (alloc_frame _ _ _).2.2.2.2 hd
  have hnewlvl : ((alloc_init_topo_procent st (some sysIdx) nid).1.ents.getD
      st.ents.length default).level = TOPOLOGY_NODE := by
    rw [alloc_getD_new]
    dsimp only
    rw [hl]
    decide
  obtain ⟨hinv1, hlen1, hold1⟩ := dnc_inv fs _ st.ents.length nid st1 h
    (by omega) hnewlvl hinvA
  refine ⟨hinv1, by omega, ?_⟩
  intro j hj
  have h1 := holdA j hj
  have h2 := hold1 j (by omega)
  exact ⟨by rw [h2.1, h1.1], by rw [h2.2, h1.2]⟩

theorem dnl_inv (fs : Sysfs) (sysIdx : Nat) :
    ∀ nids st st1, do_nodes_loop fs sysIdx st nids = some st1 →
      sysIdx < st.ents.length →
      (st.ents.getD sysIdx default).level = TOPOLOGY_SYSTEM →
      build_inv st →
      build_inv st1 := by
  intro nids
  induction nids with
  | nil =>
    intro st st1 h hs hl hinv
    unfold do_nodes_loop at h
    simp only [Option.some.injEq] at h
    subst h
    exact hinv
  | cons n rest ih =>
    intro st st1 h hs hl hinv
    unfold do_nodes_loop at h
    cases hdn : do_one_node fs st sysIdx n with
    | none => rw [hdn] at h; exact absurd h (by simp)
    | some stx =>
      rw [hdn] at h
      simp only at h
      obtain ⟨hinvX, hlenX, holdX⟩ := don_inv fs st sysIdx n stx hdn hs hl hinv
      exact ih stx st1 h (by omega) (by rw [(holdX sysIdx hs).1]; exact hl) hinvX

theorem build_inv_holds (fs : Sysfs) (size : Nat) (st : BuildSt)
    (h : build_context fs size = some st) : build_inv st := by
  have hinvI : build_inv (⟨size, [⟨TOPOLOGY_SYSTEM, 0, none, none, [], 0⟩],
      ⟨[], 0, 8 * size⟩, ⟨[], 0, 8 * size⟩, [], ⟨[], 0, 2⟩⟩ : BuildSt) := by
    refine ⟨⟨?_, ?_, ?_⟩, ?_, ⟨?_, ?_⟩, ?_, ?_, ?_, ?_, ?_, ?_⟩
    · intro j hj p hp
      simp only [List.length_singleton] at hj
      have hj0 : j = 0 := by omega
      subst hj0
      simp [List.getD] at hp
    · intro j hj c hc
      simp only [List.length_singleton] at hj
      have hj0 : j = 0 := by omega
      subst hj0
      simp [List.getD] at hc
    · intro j hj
      simp only [List.length_singleton] at hj
      have hj0 : j = 0 := by omega
      subst hj0
      simp [List.getD]
    · intro j hj hl
      simp only [List.length_singleton] at hj
      have hj0 : j = 0 := by omega
      subst hj0
      rfl
    · intro e he
      simp at he
    · intro e he
      simp at he
    · intro d hd
      simp at hd
    · intro d hd
      simp at hd
    · simp
    · rfl
    · show (1:Nat) ≤ 2
      omega
    · show (0:Nat) ≤ 2
      omega
  unfold build_context at h
  cases hn : fs.nodes with
  | none =>
    rw [hn] at h
    have h2 : do_one_node fs (⟨size, [⟨TOPOLOGY_SYSTEM, 0, none, none, [], 0⟩],
        ⟨[], 0, 8 * size⟩, ⟨[], 0, 8 * size⟩, [], ⟨[], 0, 2⟩⟩ : BuildSt) 0 0 = some st := h
    exact (don_inv fs _ 0 0 st h2 (by simp) rfl hinvI).1
  | some nids =>
    rw [hn] at h
    have h2 : do_nodes_loop fs 0 (⟨size, [⟨TOPOLOGY_SYSTEM, 0, none, none, [], 0⟩],
        ⟨[], 0, 8 * size⟩, ⟨[], 0, 8 * size⟩, [], ⟨[], 0, 2⟩⟩ : BuildSt) nids = some st := h
    exact dnl_inv fs 0 nids _ st h2 (by simp) rfl hinvI

/-- C6: in every successfully built context, every non-thread entity's cpumask
    equals the bitwise union of its direct children's cpumasks (bits reach an
    entity only by a thread's cpu id being propagated up the parent chain by
    topo_procent_cpumask_set, which keeps this equation at every level), and a
    freshly allocated entity's mask is all-zero. -/
theorem mask_is_children_union (fs : Sysfs) (size : Nat) (st : BuildSt)
    (h : build_context fs size = some st) :
    (∀ i, i < st.ents.length →
      (st.ents.getD i default).level ≠ TOPOLOGY_THREAD →
      (st.ents.getD i default).cpumask =
        mask_union st.ents (st.ents.getD i default).children) ∧
    (∀ (st2 : BuildSt) (par : Option Nat) (id : Nat),
      ((alloc_init_topo_procent st2 par id).1.ents.getD
        (alloc_init_topo_procent st2 par id).2 default).cpumask = 0) := by
  constructor
  · exact (build_inv_holds fs size st h).2.1
  · intro st2 par id
    cases par with
    | none =>
      rw [alloc_snd]
      unfold alloc_init_topo_procent
      simp only
      rw [getD_append_len]
    | some p =>
      rw [alloc_snd, alloc_getD_new]

/-- witness for C6 on the concrete build from fsW: the system entity (level 5)
    has the mask of the union of its children, and a fresh allocation under it
    has mask zero. -/
theorem mask_is_children_union_witness :
    build_context fsW 4 = some ctxW ∧
    (ctxW.ents.getD 0 default).level ≠ TOPOLOGY_THREAD ∧
    (ctxW.ents.getD 0 default).cpumask =
      mask_union ctxW.ents (ctxW.ents.getD 0 default).children ∧
    ((alloc_init_topo_procent ctxW (some 0) 7).1.ents.getD
      (alloc_init_topo_procent ctxW (some 0) 7).2 default).cpumask = 0 := by
  have h := mask_is_children_union fsW 4 ctxW (by decide)
  exact ⟨by decide, by decide, h.1 0 (by decide) (by decide), h.2 ctxW (some 0) 7⟩

/-- C7: in every successfully built context the registered cache devices have
    pairwise distinct (level, type, shared_cpu_map) attribute triples: each
    registered cache carries the signature built from exactly these three
    attributes, a cache whose signature is already in the device table is
    never registered, and the signatures present are pairwise distinct. -/
theorem cache_triples_distinct (fs : Sysfs) (size : Nat) (st : BuildSt)
    (h : build_context fs size = some st) :
    ∀ i j, i < st.devices.length → j < st.devices.length → i ≠ j →
      cache_triple (st.devices.getD i default) ≠
        cache_triple (st.devices.getD j default) := by
  obtain ⟨_, _, _, d1, d2, d3, _⟩ := build_inv_holds fs size st h
  intro i j hi hj hij heq
  have hgi : st.devices.getD i default = st.devices.get ⟨i, hi⟩ := by
    rw [List.getD_eq_getElem?_getD, List.getElem?_eq_getElem hi]
    rfl
  have hgj : st.devices.getD j default = st.devices.get ⟨j, hj⟩ := by
    rw [List.getD_eq_getElem?_getD, List.getElem?_eq_getElem hj]
    rfl
  have hmi : st.devices.get ⟨i, hi⟩ ∈ st.devices := List.get_mem _ _ _
  have hmj : st.devices.get ⟨j, hj⟩ ∈ st.devices := List.get_mem _ _ _
  obtain ⟨li, ti, mi, h1i, h2i, h3i, h4i⟩ := d1 _ hmi
  obtain ⟨lj, tj, mj, h1j, h2j, h3j, h4j⟩ := d1 _ hmj
  unfold cache_triple at heq
  rw [hgi, hgj, h1i, h2i, h3i, h1j, h2j, h3j] at heq
  simp only [Prod.mk.injEq, Option.some.injEq] at heq
  obtain ⟨hte, hle, hme⟩ := heq
  have hkeq : (st.devices.get ⟨i, hi⟩).hash_key = (st.devices.get ⟨j, hj⟩).hash_key := by
    rw [h4i, h4j, hte, hle, hme]
  have hi2 : i < (st.devices.map (fun d => d.hash_key)).length := by simpa using hi
  have hj2 : j < (st.devices.map (fun d => d.hash_key)).length := by simpa using hj
  have hmap : (st.devices.map (fun d => d.hash_key)).get ⟨i, hi2⟩ =
      (st.devices.map (fun d => d.hash_key)).get ⟨j, hj2⟩ := by
    rw [List.get_eq_getElem, List.get_eq_getElem, List.getElem_map, List.getElem_map]
    rw [List.get_eq_getElem, List.get_eq_getElem] at hkeq
    exact hkeq
  have := (List.Nodup.get_inj_iff d3).mp hmap
  simp only [Fin.mk.injEq] at this
  exact hij this

/-- witness for C7 on the concrete build from fsW: three cache devices are
    registered (two private L1 caches and one deduplicated shared L2), and the
    first two have different attribute triples. -/
theorem cache_triples_distinct_witness :
    build_context fsW 4 = some ctxW ∧ ctxW.devices.length = 3 ∧
    cache_triple (ctxW.devices.getD 0 default) ≠
      cache_triple (ctxW.devices.getD 1 default) :=
  ⟨by decide, by decide,
   cache_triples_distinct fsW 4 ctxW (by decide) 0 1 (by decide) (by decide) (by decide)⟩
